import Mathlib

/-!
Verification development for the multiplexer-side service core of
ansible_mitogen (file ansible_mitogen/services.py): the ContextService
(deduplicating, reference-counted, LRU-bounded cache of live connections)
and the FileService (registration-gated streaming file server).

The Python source is shallowly embedded:

* Python dicts become association lists (key order = insertion order),
  with faithful semantics for item assignment (update in place or append),
  `pop(k, None)` (remove when present) and `d[k]` (KeyError when absent).
* `ContextService.key_from_kwargs` works over reified Python values
  (`PyObj`): strings/scalars, lists/tuples, and dicts.  A scalar is
  represented by the string `str(obj)` yields for it.
* Exceptions are modelled with `Except PyErr`; each named error in the
  code maps to a `PyErr` constructor.
* Concurrency in `_wait_or_start` is modelled by a small labelled
  transition system whose atomic steps are the lock-protected critical
  sections of the source plus the unlocked statements between them.
-/

namespace Mitogen

/-! ## Python string comparison

Python 2 compares `str` lexicographically by character code point.  This
order is used by `sorted(obj.iteritems())` inside
`ContextService.key_from_kwargs` (comparing the `(key, value)` tuples by
their first component while keys are distinct). -/

/-- Lexicographic comparison of character lists by code point, mirroring
Python string comparison. -/
def strLeL : List Char → List Char → Bool
  | [], _ => true
  | _ :: _, [] => false
  | a :: as, b :: bs =>
    if a.toNat < b.toNat then true
    else if b.toNat < a.toNat then false
    else strLeL as bs

/-- Python string less-or-equal (lexicographic by code point). -/
def strLe (s t : String) : Bool := strLeL s.data t.data

theorem char_toNat_inj {a b : Char} (h : a.toNat = b.toNat) : a = b := by
  apply Char.eq_of_val_eq
  simp only [Char.toNat] at h
  exact UInt32.toNat.inj h

theorem strLeL_total (x y : List Char) : strLeL x y = true ∨ strLeL y x = true := by
  induction x generalizing y with
  | nil => left; rfl
  | cons a as ih =>
    cases y with
    | nil => right; rfl
    | cons b bs =>
      simp only [strLeL]
      rcases Nat.lt_trichotomy a.toNat b.toNat with h | h | h
      · left; simp [h]
      · have hab : a = b := char_toNat_inj h
        subst hab
        rcases ih bs with h2 | h2 <;> simp [h2]
      · right; simp [h, Nat.lt_asymm h]

theorem strLeL_trans {x y z : List Char} (h1 : strLeL x y = true)
    (h2 : strLeL y z = true) : strLeL x z = true := by
  induction x generalizing y z with
  | nil => rfl
  | cons a as ih =>
    cases y with
    | nil => simp [strLeL] at h1
    | cons b bs =>
      cases z with
      | nil => simp [strLeL] at h2
      | cons c cs =>
        simp only [strLeL] at h1 h2 ⊢
        rcases Nat.lt_trichotomy a.toNat c.toNat with h | h | h
        · simp [h]
        · have hac : a = c := char_toNat_inj h
          subst hac
          simp only [Nat.lt_irrefl, if_false, if_neg (Nat.lt_irrefl _)]
          by_cases hab : a.toNat < b.toNat
          · by_cases hbc : b.toNat < a.toNat
            · omega
            · simp [hab, hbc] at h2
          · by_cases hba : b.toNat < a.toNat
            · simp [hab, hba] at h1
            · have : a.toNat = b.toNat := by omega
              have hab2 : a = b := char_toNat_inj this
              subst hab2
              simp [hab] at h1 h2
              exact ih h1 h2
        · exfalso
          by_cases hab : a.toNat < b.toNat
          · by_cases hbc : b.toNat < c.toNat
            · omega
            · by_cases hcb : c.toNat < b.toNat
              · simp [hbc, hcb] at h2
              · omega
          · by_cases hba : b.toNat < a.toNat
            · simp [hab, hba] at h1
            · have : a.toNat = b.toNat := by omega
              by_cases hbc : b.toNat < c.toNat
              · omega
              · by_cases hcb : c.toNat < b.toNat
                · simp [hbc, hcb] at h2
                · omega

theorem strLeL_antisymm {x y : List Char} (h1 : strLeL x y = true)
    (h2 : strLeL y x = true) : x = y := by
  induction x generalizing y with
  | nil =>
    cases y with
    | nil => rfl
    | cons b bs => simp [strLeL] at h2
  | cons a as ih =>
    cases y with
    | nil => simp [strLeL] at h1
    | cons b bs =>
      simp only [strLeL] at h1 h2
      by_cases hab : a.toNat < b.toNat
      · simp [hab, Nat.lt_asymm hab] at h2
      · by_cases hba : b.toNat < a.toNat
        · simp [hab, hba] at h1
        · have : a.toNat = b.toNat := by omega
          have hab2 : a = b := char_toNat_inj this
          subst hab2
          simp [hab] at h1 h2
          rw [ih h1 h2]

theorem strLe_total (x y : String) : strLe x y = true ∨ strLe y x = true :=
  strLeL_total x.data y.data

theorem strLe_trans {x y z : String} (h1 : strLe x y = true)
    (h2 : strLe y z = true) : strLe x z = true :=
  strLeL_trans h1 h2

theorem strLe_antisymm {x y : String} (h1 : strLe x y = true)
    (h2 : strLe y x = true) : x = y := by
  cases x with
  | mk dx =>
    cases y with
    | mk dy =>
      have : dx = dy := strLeL_antisymm h1 h2
      rw [this]

/-! ## Reified Python values for `key_from_kwargs`

`ContextService.key_from_kwargs` traverses an arbitrary nesting of
dicts, lists/tuples and scalars.  A scalar is carried as the string that
Python `str()` yields for it; dict keys are strings (connection option
names). -/

/-- Reified Python value as traversed by `key_from_kwargs`. -/
inductive PyObj where
  | pystr (s : String)
  | pylist (elems : List PyObj)
  | pydict (entries : List (String × PyObj))

mutual

/-- Weight of a value; used as termination measure for the key loop. -/
def pySize : PyObj → Nat
  | .pystr _ => 1
  | .pylist l => 1 + pySizeL l
  | .pydict d => 1 + pySizeD d

def pySizeL : List PyObj → Nat
  | [] => 0
  | a :: t => pySize a + pySizeL t

def pySizeD : List (String × PyObj) → Nat
  | [] => 0
  | kv :: t => (3 + pySize kv.2) + pySizeD t

end

/-- Insert a pair into a key-sorted list of pairs (one step of the sort
performed by Python `sorted` on `(key, value)` tuples; with distinct
keys only the keys are compared). -/
def pairInsert (p : String × PyObj) : List (String × PyObj) → List (String × PyObj)
  | [] => [p]
  | q :: t => if strLe p.1 q.1 then p :: q :: t else q :: pairInsert p t

/-- Model of Python `sorted(d.iteritems())` for a dict with distinct
string keys: sort the `(key, value)` pairs by key. -/
def sortPairs : List (String × PyObj) → List (String × PyObj)
  | [] => []
  | p :: t => pairInsert p (sortPairs t)

/-- A `(key, value)` tuple pushed on the traversal stack is itself a
sequence of two elements: the key (a string) and the value. -/
def pairToObj (kv : String × PyObj) : PyObj := .pylist [.pystr kv.1, kv.2]

theorem pySizeL_append (a b : List PyObj) :
    pySizeL (a ++ b) = pySizeL a + pySizeL b := by
  induction a with
  | nil => simp [pySizeL]
  | cons x t ih => simp [pySizeL, ih]; omega

theorem pySizeL_reverse (a : List PyObj) : pySizeL a.reverse = pySizeL a := by
  induction a with
  | nil => rfl
  | cons x t ih => simp [pySizeL, List.reverse_cons, pySizeL_append, ih]; omega

theorem pairInsert_perm (p : String × PyObj) (l : List (String × PyObj)) :
    (pairInsert p l).Perm (p :: l) := by
  induction l with
  | nil => simp [pairInsert]
  | cons q t ih =>
    simp only [pairInsert]
    by_cases h : strLe p.1 q.1
    · simp [h]
    · simp only [h, Bool.false_eq_true, if_false]
      exact (ih.cons q).trans (List.Perm.swap p q t)

theorem sortPairs_perm (l : List (String × PyObj)) : (sortPairs l).Perm l := by
  induction l with
  | nil => exact List.Perm.refl _
  | cons p t ih => exact (pairInsert_perm p (sortPairs t)).trans (ih.cons p)

theorem pySizeD_perm {a b : List (String × PyObj)} (h : a.Perm b) :
    pySizeD a = pySizeD b := by
  induction h with
  | nil => rfl
  | cons x _ ih => simp [pySizeD, ih]
  | swap x y l => simp [pySizeD]; omega
  | trans _ _ ih1 ih2 => omega

theorem pySizeL_map_pairToObj (m : List (String × PyObj)) :
    pySizeL (m.map pairToObj) + m.length = pySizeD m := by
  induction m with
  | nil => rfl
  | cons kv t ih =>
    simp only [List.map_cons, pySizeL, pySizeD, pairToObj, pySize, List.length_cons]
    omega

/-- The while loop of `key_from_kwargs`.  The Python stack's top is the
head of the list here, so `stack.extend(xs)` becomes prepending
`xs.reverse`, and `stack.pop()` takes the head.  Dicts push their pairs
sorted; lists push their elements; scalars are appended to `out`. -/
def pyKeyLoop : List PyObj → List String → List String
  | [], out => out
  | .pystr s :: rest, out => pyKeyLoop rest (out ++ [s])
  | .pylist l :: rest, out => pyKeyLoop (l.reverse ++ rest) out
  | .pydict d :: rest, out => pyKeyLoop (((sortPairs d).map pairToObj).reverse ++ rest) out
termination_by stack _ => pySizeL stack
decreasing_by
  · simp [pySizeL, pySize]
  · simp only [pySizeL_append, pySizeL_reverse, pySizeL, pySize]; omega
  · simp only [pySizeL_append, pySizeL_reverse, pySizeL, pySize]
    have h1 := pySizeL_map_pairToObj (sortPairs d)
    have h2 := pySizeD_perm (sortPairs_perm d)
    omega

/-- Model of `ContextService.key_from_kwargs`: deduplication key from a
kwargs dict. -/
def keyFromKwargs (kw : List (String × PyObj)) : String :=
  String.join (pyKeyLoop [.pydict kw] [])

/-- Order on `(key, value)` pairs by key, as used by the sort. -/
def keyLe (p q : String × PyObj) : Prop := strLe p.1 q.1 = true

instance : DecidableRel keyLe := fun p q => by
  unfold keyLe; infer_instance

theorem pairInsert_sorted (p : String × PyObj) {l : List (String × PyObj)}
    (h : l.Pairwise keyLe) : (pairInsert p l).Pairwise keyLe := by
  induction l with
  | nil => simp [pairInsert]
  | cons q t ih =>
    rcases List.pairwise_cons.mp h with ⟨hq, ht⟩
    simp only [pairInsert]
    by_cases hpq : strLe p.1 q.1
    · simp only [hpq, if_true]
      refine List.pairwise_cons.mpr ⟨?_, h⟩
      intro x hx
      rcases List.mem_cons.mp hx with rfl | hx
      · exact hpq
      · exact strLe_trans hpq (hq x hx)
    · simp only [hpq, Bool.false_eq_true, if_false]
      refine List.pairwise_cons.mpr ⟨?_, ih ht⟩
      intro x hx
      have hx2 : x = p ∨ x ∈ t := by
        have := (pairInsert_perm p t).mem_iff.mp hx
        simpa using this
      rcases hx2 with h2 | hx2
      · rw [h2]
        rcases strLe_total p.1 q.1 with h3 | h3
        · exact absurd h3 hpq
        · exact h3
      · exact hq x hx2

theorem sortPairs_sorted (l : List (String × PyObj)) :
    (sortPairs l).Pairwise keyLe := by
  induction l with
  | nil => simp [sortPairs]
  | cons p t ih => exact pairInsert_sorted p ih

/-- Two key-sorted pair lists with the same entries and duplicate-free
keys are equal. -/
theorem sorted_key_unique {l1 l2 : List (String × PyObj)} (hp : l1.Perm l2)
    (hn : (l1.map Prod.fst).Nodup) (h1 : l1.Pairwise keyLe)
    (h2 : l2.Pairwise keyLe) : l1 = l2 := by
  have hn2 : (l2.map Prod.fst).Nodup := ((hp.map Prod.fst).nodup_iff).mp hn
  have hpw1 : l1.Pairwise (fun a b : String × PyObj => a.1 ≠ b.1) :=
    List.pairwise_map.mp hn
  have hpw2 : l2.Pairwise (fun a b : String × PyObj => a.1 ≠ b.1) :=
    List.pairwise_map.mp hn2
  haveI : IsAntisymm (String × PyObj)
      (fun a b => keyLe a b ∧ a.1 ≠ b.1) := by
    constructor
    intro a b hab hba
    exact absurd (strLe_antisymm hab.1 hba.1) hab.2
  exact List.eq_of_perm_of_sorted hp (h1.and hpw1) (h2.and hpw2)

mutual

/-- Canonical form of a value: every dict has its entries sorted by
key, recursively.  Two values have equal canonical forms exactly when
they differ only in the insertion order of (possibly nested) mapping
entries. -/
def canon : PyObj → PyObj
  | .pystr s => .pystr s
  | .pylist l => .pylist (canonL l)
  | .pydict d => .pydict (sortPairs (canonD d))

def canonL : List PyObj → List PyObj
  | [] => []
  | a :: t => canon a :: canonL t

def canonD : List (String × PyObj) → List (String × PyObj)
  | [] => []
  | kv :: t => (kv.1, canon kv.2) :: canonD t

end

theorem canonL_eq_map (l : List PyObj) : canonL l = l.map canon := by
  induction l with
  | nil => rfl
  | cons a t ih => simp [canonL, ih]

theorem canonD_eq_map (d : List (String × PyObj)) :
    canonD d = d.map (fun kv => (kv.1, canon kv.2)) := by
  induction d with
  | nil => rfl
  | cons kv t ih => simp [canonD, ih]

mutual

/-- Every dict in the value has duplicate-free keys (always true of
values reified from live Python dicts). -/
def ndk : PyObj → Bool
  | .pystr _ => true
  | .pylist l => ndkL l
  | .pydict d => decide (d.map Prod.fst).Nodup && ndkD d

def ndkL : List PyObj → Bool
  | [] => true
  | a :: t => ndk a && ndkL t

def ndkD : List (String × PyObj) → Bool
  | [] => true
  | kv :: t => ndk kv.2 && ndkD t

end

theorem ndkL_append (a b : List PyObj) :
    ndkL (a ++ b) = (ndkL a && ndkL b) := by
  induction a with
  | nil => simp [ndkL]
  | cons x t ih => simp [ndkL, ih, Bool.and_assoc]

theorem ndkL_reverse (a : List PyObj) : ndkL a.reverse = ndkL a := by
  induction a with
  | nil => rfl
  | cons x t ih =>
    simp [ndkL, List.reverse_cons, ndkL_append, ih, Bool.and_comm]

theorem ndkD_perm {a b : List (String × PyObj)} (h : a.Perm b) :
    ndkD a = ndkD b := by
  induction h with
  | nil => rfl
  | cons x _ ih => simp [ndkD, ih]
  | swap x y l => simp [ndkD, ← Bool.and_assoc, Bool.and_comm (ndk y.2)]
  | trans _ _ ih1 ih2 => rw [ih1, ih2]

theorem ndkL_map_pairToObj (m : List (String × PyObj)) :
    ndkL (m.map pairToObj) = ndkD m := by
  induction m with
  | nil => rfl
  | cons kv t ih => simp [ndkL, ndkD, pairToObj, ndk, ih]

theorem canonD_keys (d : List (String × PyObj)) :
    (canonD d).map Prod.fst = d.map Prod.fst := by
  induction d with
  | nil => rfl
  | cons kv t ih => simp [canonD, ih]

theorem canonD_pairwise {d : List (String × PyObj)}
    (h : d.Pairwise keyLe) : (canonD d).Pairwise keyLe := by
  rw [canonD_eq_map]
  exact List.pairwise_map.mpr (h.imp fun hab => hab)

/-- Sorting commutes with canonicalizing the values of a dict with
duplicate-free keys: sorting an already value-canonicalized entry list
equals value-canonicalizing the sorted entry list. -/
theorem sortPairs_canonD_comm (d : List (String × PyObj))
    (hn : (d.map Prod.fst).Nodup) :
    sortPairs (sortPairs (canonD d)) = canonD (sortPairs d) := by
  have h1 : (sortPairs (sortPairs (canonD d))).Perm (canonD d) :=
    (sortPairs_perm _).trans (sortPairs_perm _)
  have h2 : (canonD (sortPairs d)).Perm (canonD d) := by
    rw [canonD_eq_map, canonD_eq_map]
    exact (sortPairs_perm d).map _
  apply sorted_key_unique (h1.trans h2.symm)
  · apply ((h1.map Prod.fst).nodup_iff).mpr
    rw [canonD_keys]
    exact hn
  · exact sortPairs_sorted _
  · exact canonD_pairwise (sortPairs_sorted d)

theorem canon_pairToObj (kv : String × PyObj) :
    canon (pairToObj kv) = pairToObj (kv.1, canon kv.2) := by
  simp [pairToObj, canon, canonL]

theorem map_canon_pairToObj (m : List (String × PyObj)) :
    (m.map pairToObj).map canon = (canonD m).map pairToObj := by
  induction m with
  | nil => rfl
  | cons kv t ih => simp [canonD, canon_pairToObj, ih]

/-- Replacing the traversal stack by its canonical form does not change
the output of the key loop, provided every dict in it has
duplicate-free keys. -/
theorem pyKeyLoop_canon :
    ∀ n st out, pySizeL st = n → ndkL st = true →
      pyKeyLoop (st.map canon) out = pyKeyLoop st out := by
  intro n
  induction n using Nat.strong_induction_on with
  | _ n ih =>
    intro st out hsz hnd
    cases st with
    | nil => rfl
    | cons a rest =>
      cases a with
      | pystr s =>
        simp only [List.map_cons, canon, pyKeyLoop]
        have hlt : pySizeL rest < n := by
          simp only [pySizeL, pySize] at hsz; omega
        have hnd2 : ndkL rest = true := by
          simp only [ndkL, ndk, Bool.true_and] at hnd; exact hnd
        exact ih (pySizeL rest) hlt rest (out ++ [s]) rfl hnd2
      | pylist l =>
        simp only [List.map_cons, canon, pyKeyLoop, canonL_eq_map]
        rw [← List.map_reverse, ← List.map_append]
        have hlt : pySizeL (l.reverse ++ rest) < n := by
          simp only [pySizeL, pySize] at hsz
          rw [pySizeL_append, pySizeL_reverse]
          omega
        have hnd2 : ndkL (l.reverse ++ rest) = true := by
          simp only [ndkL, ndk, Bool.and_eq_true] at hnd
          rw [ndkL_append, ndkL_reverse]
          simp [hnd.1, hnd.2]
        exact ih (pySizeL (l.reverse ++ rest)) hlt (l.reverse ++ rest) out rfl hnd2
      | pydict d =>
        simp only [ndkL, ndk, Bool.and_eq_true, decide_eq_true_eq] at hnd
        obtain ⟨⟨hn, hd⟩, hr⟩ := hnd
        simp only [List.map_cons, canon, pyKeyLoop]
        rw [sortPairs_canonD_comm d hn, ← map_canon_pairToObj,
          ← List.map_reverse, ← List.map_append]
        have hsy := pySizeL_map_pairToObj (sortPairs d)
        have hsp := pySizeD_perm (sortPairs_perm d)
        have hlt : pySizeL (((sortPairs d).map pairToObj).reverse ++ rest) < n := by
          simp only [pySizeL, pySize] at hsz
          rw [pySizeL_append, pySizeL_reverse]
          omega
        have hnd2 : ndkL (((sortPairs d).map pairToObj).reverse ++ rest) = true := by
          rw [ndkL_append, ndkL_reverse, ndkL_map_pairToObj,
            ndkD_perm (sortPairs_perm d)]
          simp [hd, hr]
        exact ih _ hlt (((sortPairs d).map pairToObj).reverse ++ rest) out rfl hnd2

theorem keyFromKwargs_canon (kw : List (String × PyObj))
    (h : ndk (.pydict kw) = true) :
    keyFromKwargs kw = String.join (pyKeyLoop [canon (.pydict kw)] []) := by
  unfold keyFromKwargs
  congr 1
  have : ndkL [PyObj.pydict kw] = true := by simp [ndkL, h]
  exact (pyKeyLoop_canon (pySizeL [PyObj.pydict kw]) [PyObj.pydict kw] [] rfl this).symm

/-- C9 counterexample: the claim asserts that two specs differing in
the order of elements inside a list value always yield distinct
fingerprints.  The kwargs dicts whose "args" entry is the list
["a", "aa"] versus the reordered list ["aa", "a"] are distinct specs
differing only in that element order, yet `key_from_kwargs` maps both
to the same key (the loop concatenates the textual items, so "aa"+"a"
and "a"+"aa" collide). -/
theorem fingerprint_seq_order_counterexample :
    keyFromKwargs [("args", PyObj.pylist [.pystr "a", .pystr "aa"])]
      = keyFromKwargs [("args", PyObj.pylist [.pystr "aa", .pystr "a"])]
    ∧ [PyObj.pystr "a", PyObj.pystr "aa"] ≠ [PyObj.pystr "aa", PyObj.pystr "a"] := by
  constructor
  · simp [keyFromKwargs, pyKeyLoop, sortPairs, pairInsert, pairToObj, String.join]
  · intro h
    simp [PyObj.pystr.injEq] at h

/-- C9 (amended): the deduplication key is a pure function of the
kwargs structure for which mapping-entry insertion order (at any
nesting depth, captured by equality of `canon` forms) is irrelevant,
while reordering the elements of a list value generally — but not
always — changes the key (for example [1, 2] versus [2, 1] differ). -/
theorem fingerprint_canonicality_amended :
    (∀ kw1 kw2 : List (String × PyObj),
      ndk (.pydict kw1) = true → ndk (.pydict kw2) = true →
      canon (.pydict kw1) = canon (.pydict kw2) →
      keyFromKwargs kw1 = keyFromKwargs kw2)
    ∧ keyFromKwargs [("args", PyObj.pylist [.pystr "1", .pystr "2"])]
      ≠ keyFromKwargs [("args", PyObj.pylist [.pystr "2", .pystr "1"])] := by
  constructor
  · intro kw1 kw2 h1 h2 hc
    rw [keyFromKwargs_canon kw1 h1, keyFromKwargs_canon kw2 h2, hc]
  · simp [keyFromKwargs, pyKeyLoop, sortPairs, pairInsert, pairToObj, String.join]

/-- C9 witness: two kwargs dicts listing the same entries in different
insertion order receive equal fingerprints. -/
theorem fingerprint_canonicality_witness :
    keyFromKwargs [("b", .pystr "2"), ("a", .pystr "1")]
      = keyFromKwargs [("a", .pystr "1"), ("b", .pystr "2")] :=
  fingerprint_canonicality_amended.1
    [("b", .pystr "2"), ("a", .pystr "1")]
    [("a", .pystr "1"), ("b", .pystr "2")]
    (by simp [ndk, ndkD])
    (by simp [ndk, ndkD])
    (by simp [canon, canonD, sortPairs, pairInsert, strLe, strLeL])

/-! ## Python dicts as association lists

Key order is insertion order.  `alset` models item assignment (update
in place, or append for a fresh key), `alpop` models `pop(k, None)`
(remove when present), `alget` models `get`. -/

def alget {κ β : Type} [DecidableEq κ] : List (κ × β) → κ → Option β
  | [], _ => none
  | kv :: t, x => if kv.1 = x then some kv.2 else alget t x

def alset {κ β : Type} [DecidableEq κ] : List (κ × β) → κ → β → List (κ × β)
  | [], x, v => [(x, v)]
  | kv :: t, x, v => if kv.1 = x then (kv.1, v) :: t else kv :: alset t x v

def alpop {κ β : Type} [DecidableEq κ] : List (κ × β) → κ → List (κ × β)
  | [], _ => []
  | kv :: t, x => if kv.1 = x then t else kv :: alpop t x

theorem alget_alset_self {κ β : Type} [DecidableEq κ]
    (l : List (κ × β)) (k : κ) (v : β) : alget (alset l k v) k = some v := by
  induction l with
  | nil => simp [alset, alget]
  | cons kv t ih =>
    by_cases h : kv.1 = k
    · simp [alset, alget, h]
    · simp [alset, alget, h, ih]

theorem alset_of_alget_eq {κ β : Type} [DecidableEq κ]
    {l : List (κ × β)} {k : κ} {v : β} (h : alget l k = some v) :
    alset l k v = l := by
  induction l with
  | nil => simp [alget] at h
  | cons kv t ih =>
    obtain ⟨k1, v1⟩ := kv
    by_cases hk : k1 = k
    · subst hk
      simp [alget] at h
      simp [alset, h]
    · simp [alget, hk] at h
      simp [alset, hk, ih h]

/-! ## Exceptions -/

/-- Python/mitogen exceptions raised by the modelled code paths. -/
inductive PyErr where
  | keyError (k : String)
  | nameError (n : String)
  | valueError (m : String)
  | attributeError (m : String)
  | ioError (m : String)
  | mitogenError (m : String)
  | streamError (m : String)
  | callError (m : String)
  | latchError
  | blocked
deriving DecidableEq

/-! ## ContextService state

One field per instance attribute of `ContextService`, plus three
observation fields recording the calls the service makes into its
environment: `shutdown_calls` (every `context.shutdown()`),
`transport_calls` (every invocation of a router transport method) and
`warns` (every `LOG.warning`). -/

/-- Remote context handle; identified by its `context_id`. -/
abbrev Ctx := Nat

/-- Response dict produced by `ContextService._connect`:
`{context, home_dir, msg}`. -/
structure CSResponse where
  context : Ctx
  home_dir : String
  msg : Option String := none
deriving DecidableEq

structure CtxState where
  response_by_key : List (String × CSResponse) := []
  latches_by_key : List (String × List Nat) := []
  refs_by_context : List (Ctx × Nat) := []
  lru_by_via : List (Ctx × List Ctx) := []
  key_by_context : List (Ctx × String) := []
  shutdown_calls : List Ctx := []
  transport_calls : List String := []
  warns : Nat := 0
deriving DecidableEq

/-- Model of `ContextService._shutdown(context, lru, new_context)`:
call `context.shutdown()`, then delete the context's cache entry,
refcount and key-index entry, remove it from the passed LRU list and
append `new_context` there.  `lruVia` identifies the passed list as the
`_lru_by_via` entry it aliases (at both call sites the `lru` argument
is exactly `self._lru_by_via[via]`). -/
def shutdownCtx (s : CtxState) (ctx : Ctx) (lruVia : Option Ctx)
    (newContext : Option Ctx) : Except PyErr CtxState :=
  let s1 : CtxState := { s with shutdown_calls := s.shutdown_calls ++ [ctx] }
  match alget s1.key_by_context ctx with
  | none => .error (.keyError "key_by_context")
  | some key =>
    if (alget s1.response_by_key key).isNone then
      .error (.keyError "response_by_key")
    else if (alget s1.refs_by_context ctx).isNone then
      .error (.keyError "refs_by_context")
    else
      let s2 : CtxState := { s1 with
        response_by_key := alpop s1.response_by_key key,
        refs_by_context := alpop s1.refs_by_context ctx,
        key_by_context := alpop s1.key_by_context ctx }
      match lruVia with
      | none =>
        match newContext with
        | none => .ok s2
        | some _ => .error (.attributeError "NoneType")
      | some via =>
        let l := (alget s2.lru_by_via via).getD []
        let rm : Except PyErr (List Ctx) :=
          if l.isEmpty then .ok l
          else if ctx ∈ l then .ok (l.erase ctx)
          else .error (.valueError "list.remove")
        match rm with
        | .error e => .error e
        | .ok l1 =>
          let l2 := match newContext with
            | some n => l1 ++ [n]
            | none => l1
          .ok { s2 with lru_by_via := alset s2.lru_by_via via l2 }

/-- Scan of `for context in reversed(lru)` looking for the first entry
whose refcount is zero (`break`); reading a missing refcount raises. -/
def scanForFree (refs : List (Ctx × Nat)) : List Ctx → Except PyErr (Option Ctx)
  | [] => .ok none
  | c :: rest =>
    match alget refs c with
    | none => .error (.keyError "refs_by_context")
    | some n => if n = 0 then .ok (some c) else scanForFree refs rest

/-- Model of `ContextService._update_lru(new_context, spec, via)`:
`setdefault` the via's LRU list; append if below `max_interpreters`;
otherwise scan newest-to-oldest for a zero-refcount entry — if none
exists, log a warning and return (without appending); if one exists,
shut it down and replace it with the new context. -/
def updateLru (maxInterpreters : Nat) (s : CtxState) (newCtx via : Ctx) :
    Except PyErr CtxState :=
  let lru := (alget s.lru_by_via via).getD []
  let s1 : CtxState := { s with lru_by_via := alset s.lru_by_via via lru }
  if lru.length < maxInterpreters then
    .ok { s1 with lru_by_via := alset s1.lru_by_via via (lru ++ [newCtx]) }
  else
    match scanForFree s1.refs_by_context lru.reverse with
    | .error e => .error e
    | .ok none => .ok { s1 with warns := s1.warns + 1 }
    | .ok (some victim) => shutdownCtx s1 victim (some via) (some newCtx)

/-- Model of the loop body of `ContextService._on_stream_disconnect`
for one `(context, key)` item of the `_key_by_context.items()`
snapshot: when the context is routed through the disconnected stream,
pop the response cache, the waiter list, the refcount (twice — the
source repeats that line) and the `_lru_by_via` entry keyed by the
context.  The source never pops `_key_by_context`. -/
def purgeOne (routes : List Ctx) (s : CtxState) (ck : Ctx × String) : CtxState :=
  if ck.1 ∈ routes then
    { s with
      response_by_key := alpop s.response_by_key ck.2,
      latches_by_key := alpop s.latches_by_key ck.2,
      refs_by_context := alpop (alpop s.refs_by_context ck.1) ck.1,
      lru_by_via := alpop s.lru_by_via ck.1 }
  else s

/-- Model of `ContextService._on_stream_disconnect(stream)`; `routes`
is `stream.routes`, the set of context ids routed through the
disconnected stream. -/
def onStreamDisconnect (routes : List Ctx) (s : CtxState) : CtxState :=
  s.key_by_context.foldl (purgeOne routes) s

theorem scanForFree_none (refs : List (Ctx × Nat)) (l : List Ctx)
    (h : ∀ c ∈ l, ∃ n, alget refs c = some n ∧ 0 < n) :
    scanForFree refs l = .ok none := by
  induction l with
  | nil => rfl
  | cons c rest ih =>
    obtain ⟨n, hn, hpos⟩ := h c (List.mem_cons_self c rest)
    simp only [scanForFree, hn]
    have : ¬ n = 0 := by omega
    simp only [this, if_false]
    exact ih fun x hx => h x (List.mem_cons_of_mem c hx)

theorem scanForFree_find (refs : List (Ctx × Nat)) (l : List Ctx)
    (h : ∀ c ∈ l, (alget refs c).isSome) :
    scanForFree refs l = .ok (l.find? (fun c => alget refs c == some 0)) := by
  induction l with
  | nil => rfl
  | cons c rest ih =>
    have hc := h c (List.mem_cons_self c rest)
    obtain ⟨n, hn⟩ := Option.isSome_iff_exists.mp hc
    simp only [scanForFree, hn, List.find?]
    by_cases h0 : n = 0
    · subst h0
      simp [hn]
    · have hbeq : (some n == some 0) = false := by simp [h0]
      simp only [hbeq, h0, if_false]
      exact ih fun x hx => h x (List.mem_cons_of_mem c hx)

instance {ε α : Type} [DecidableEq ε] [DecidableEq α] : DecidableEq (Except ε α) := fun a b =>
  match a, b with
  | .ok x, .ok y =>
    if h : x = y then isTrue (by rw [h]) else isFalse (by intro hc; cases hc; exact h rfl)
  | .error x, .error y =>
    if h : x = y then isTrue (by rw [h]) else isFalse (by intro hc; cases hc; exact h rfl)
  | .ok _, .error _ => isFalse (by intro hc; cases hc)
  | .error _, .ok _ => isFalse (by intro hc; cases hc)

/-- C2 counterexample state: via 9's LRU list is full (one entry, with
`max_interpreters = 1`) and the sole entry has refcount 1. -/
def csFull : CtxState :=
  { response_by_key := [("k5", { context := 5, home_dir := "/root" })],
    refs_by_context := [(5, 1)],
    lru_by_via := [(9, [5])],
    key_by_context := [(5, "k5")] }

/-- C2 counterexample: with a full LRU list for via 9 whose every entry
is in use, `_update_lru` for new context 7 warns and returns without
appending — the list stays [5] and context 7 is not in it, refuting
"still appends the new context to the LRU list". -/
theorem lru_oversubscription_counterexample :
    updateLru 1 csFull 7 9 = .ok { csFull with warns := 1 }
    ∧ alget ({ csFull with warns := 1 } : CtxState).lru_by_via 9 = some [5]
    ∧ ¬ (7 : Ctx) ∈ ([5] : List Ctx) := by
  refine ⟨by decide, by decide, by decide⟩

/-- C2 (amended): when a context is established over a via whose LRU
list is full and every listed entry has a positive refcount, the
service logs a warning and returns without appending; the list keeps
its length, no context is shut down, and the establishment request is
not failed (the update returns normally). -/
theorem lru_oversubscription_amended (maxInterpreters : Nat) (s : CtxState)
    (newCtx via : Ctx) (lru : List Ctx)
    (hl : alget s.lru_by_via via = some lru)
    (hfull : ¬ lru.length < maxInterpreters)
    (hbusy : ∀ c ∈ lru, ∃ n, alget s.refs_by_context c = some n ∧ 0 < n) :
    updateLru maxInterpreters s newCtx via = .ok { s with warns := s.warns + 1 } := by
  have hset : alset s.lru_by_via via lru = s.lru_by_via := alset_of_alget_eq hl
  have hscan : scanForFree s.refs_by_context lru.reverse = .ok none :=
    scanForFree_none _ _ fun c hc => hbusy c (List.mem_reverse.mp hc)
  simp only [updateLru, hl, Option.getD_some, hset, hfull, if_false]
  rw [hscan]

/-- C2 witness: a concrete full all-busy LRU list for which the amended
behaviour is observed. -/
theorem lru_oversubscription_witness :
    updateLru 1 csFull 6 9 = .ok { csFull with warns := 1 } :=
  lru_oversubscription_amended 1 csFull 6 9 [5] (by decide) (by decide)
    (by intro c hc; refine ⟨1, ?_, by decide⟩; simp at hc; simp [hc]; decide)

/-- C3: when the LRU list is full and holds at least one zero-refcount
entry, `_update_lru` shuts down exactly the first zero-refcount entry
found scanning newest-to-oldest, removes it from the list, appends the
new context, and only ever shuts down zero-refcount contexts. -/
theorem lru_eviction_theorem (maxInterpreters : Nat) (s : CtxState)
    (newCtx via : Ctx) (lru : List Ctx) (victim : Ctx) (k0 : String)
    (hl : alget s.lru_by_via via = some lru)
    (hfull : ¬ lru.length < maxInterpreters)
    (hrefs : ∀ c ∈ lru, (alget s.refs_by_context c).isSome)
    (hfind : lru.reverse.find? (fun c => alget s.refs_by_context c == some 0)
      = some victim)
    (hkey : alget s.key_by_context victim = some k0)
    (hresp : (alget s.response_by_key k0).isSome) :
    ∃ s2, updateLru maxInterpreters s newCtx via = .ok s2
      ∧ s2.shutdown_calls = s.shutdown_calls ++ [victim]
      ∧ alget s.refs_by_context victim = some 0
      ∧ alget s2.lru_by_via via = some (lru.erase victim ++ [newCtx])
      ∧ ∀ c ∈ s2.shutdown_calls,
          c ∈ s.shutdown_calls ∨ alget s.refs_by_context c = some 0 := by
  have hvic0 : alget s.refs_by_context victim = some 0 := by
    have := List.find?_some hfind
    simpa using this
  have hmem : victim ∈ lru := List.mem_reverse.mp (List.mem_of_find?_eq_some hfind)
  have hset : alset s.lru_by_via via lru = s.lru_by_via := alset_of_alget_eq hl
  have hscan : scanForFree s.refs_by_context lru.reverse = .ok (some victim) := by
    rw [scanForFree_find _ _ fun c hc => hrefs c (List.mem_reverse.mp hc), hfind]
  have hne : lru.isEmpty = false := by
    cases lru with
    | nil => simp at hmem
    | cons a t => rfl
  obtain ⟨r0, hr0⟩ := Option.isSome_iff_exists.mp hresp
  refine ⟨{ s with
      shutdown_calls := s.shutdown_calls ++ [victim],
      response_by_key := alpop s.response_by_key k0,
      refs_by_context := alpop s.refs_by_context victim,
      key_by_context := alpop s.key_by_context victim,
      lru_by_via := alset s.lru_by_via via (lru.erase victim ++ [newCtx]) },
    ?_, rfl, hvic0, alget_alset_self _ _ _, ?_⟩
  · simp only [updateLru, hl, Option.getD_some, hset, hfull, if_false]
    rw [hscan]
    simp only [shutdownCtx, hkey, hr0, hvic0, Option.isNone_some,
      Bool.false_eq_true, if_false, hl, Option.getD_some, hne, hmem, if_true]
  · intro c hc
    simp only [List.mem_append, List.mem_singleton] at hc
    rcases hc with hc | hc
    · exact Or.inl hc
    · subst hc
      exact Or.inr hvic0

/-- C3 witness: concrete eviction — with `max_interpreters = 2`, via
9's list [1, 2] where context 2 (the newest) has refcount 0, the scan
from newest to oldest evicts context 2 and the list becomes [1, 3]. -/
theorem lru_eviction_witness :
    ∃ s2, updateLru 2
        { response_by_key := [("k1", { context := 1, home_dir := "/h" }),
                              ("k2", { context := 2, home_dir := "/h" })],
          refs_by_context := [(1, 1), (2, 0)],
          lru_by_via := [(9, [1, 2])],
          key_by_context := [(1, "k1"), (2, "k2")] } 3 9 = .ok s2
      ∧ s2.shutdown_calls = [] ++ [2]
      ∧ alget [(1, 1), (2, 0)] 2 = some 0
      ∧ alget s2.lru_by_via 9 = some ([1, 2].erase 2 ++ [3])
      ∧ ∀ c ∈ s2.shutdown_calls, c ∈ ([] : List Ctx) ∨ alget [(1, 1), (2, 0)] c = some 0 :=
  lru_eviction_theorem 2 _ 3 9 [1, 2] 2 "k2" (by decide) (by decide)
    (by intro c hc; simp at hc; rcases hc with h | h <;> simp [h] <;> decide)
    (by decide) (by decide) (by decide)

/-- C4 failing state: contexts 1 (key "kp") and 2 (key "kc", reached
via 1) both route through the disconnected stream. -/
def csDisc : CtxState :=
  { response_by_key := [("kp", { context := 1, home_dir := "/root" }),
                        ("kc", { context := 2, home_dir := "/root" })],
    latches_by_key := [("kc", [7])],
    refs_by_context := [(1, 0), (2, 1)],
    lru_by_via := [(1, [2])],
    key_by_context := [(1, "kp"), (2, "kc")] }

/-- C4: evaluating the disconnect purge at the failing input shows the
response cache, waiter lists, refcounts and LRU tables are purged, but
the fingerprint index `_key_by_context` still references both contexts
routed through the disconnected stream — the source pops
`_refs_by_context` twice instead of popping `_key_by_context`. -/
theorem disconnect_purge_bug :
    (onStreamDisconnect [1, 2] csDisc).key_by_context = [(1, "kp"), (2, "kc")]
    ∧ (onStreamDisconnect [1, 2] csDisc).response_by_key = []
    ∧ (onStreamDisconnect [1, 2] csDisc).latches_by_key = []
    ∧ (onStreamDisconnect [1, 2] csDisc).refs_by_context = []
    ∧ (onStreamDisconnect [1, 2] csDisc).lru_by_via = [] := by
  refine ⟨by decide, by decide, by decide, by decide, by decide⟩

/-! ## Sequential execution of `_wait_or_start` / `get`

These functions model one service-pool thread executing `get` with no
concurrent callers; `latch.get()` then yields exactly the value that
the same call chain produced.  The router and the remote calls are
oracles supplied in `SeqEnv`. -/

/-- Value a waiter's latch receives: the response dict, or the
`sys.exc_info()` tuple delivered on establishment failure. -/
inductive SFVal where
  | resp (r : CSResponse)
  | excT (e : PyErr)
deriving DecidableEq

/-- Result of `ContextService.get`: the response dict of the last hop,
or the error dict built for a StreamError. -/
inductive GetOut where
  | resp (r : CSResponse)
  | errDict (methodName msg : String)
deriving DecidableEq

/-- Oracles for the collaborators of `_connect`: the router's transport
method names, the context returned (or exception raised) by a transport
method invocation, and the result of the `expanduser` round trip. -/
structure SeqEnv where
  methods : List String
  connectRes : String → Option Ctx → Nat → Except PyErr Ctx
  homeRes : Ctx → Except PyErr String
  maxInterpreters : Nat

/-- Python `str()` restricted to the string values it is applied to in
the modelled paths. -/
def pyStr : PyObj → String
  | .pystr s => s
  | .pylist _ => ""
  | .pydict _ => ""

/-- Textual representation of the `via` kwarg (`str(None)` or the repr
of a Context); only injectivity in the context id matters. -/
def viaRepr : Option Ctx → PyObj
  | none => .pystr "None"
  | some c => .pystr ("Context(" ++ toString c ++ ")")

/-- Tail of `_connect` after the transport method returned `ctx` and
the LRU/listener bookkeeping ran: the `expanduser` round trip, then
recording `key_by_context` and a zero refcount, then the response
dict.  The fire-and-forget `start_fork_parent` call and the
`MITOGEN_DUMP_THREAD_STACKS` branch (variable unset) do not touch the
modelled state. -/
def connectSeqRest (env : SeqEnv) (s : CtxState) (key : String) (ctx : Ctx) :
    Except PyErr CSResponse × CtxState :=
  match env.homeRes ctx with
  | .error e => (.error e, s)
  | .ok home =>
    (.ok { context := ctx, home_dir := home },
      { s with
        key_by_context := alset s.key_by_context ctx key,
        refs_by_context := alset s.refs_by_context ctx 0 })

/-- Model of `ContextService._connect(key, spec, via)`.  Resolving an
unknown method name attempts to raise
`Error('unsupported method: %(transport)s' % spec)`; evaluating the
format string looks up the key "transport" in the spec dict and raises
KeyError when it is absent.  For a direct connection (`via = none`)
the disconnect listener registration has no effect on the modelled
state. -/
def connectSeq (env : SeqEnv) (s : CtxState) (key : String)
    (spec : List (String × PyObj)) (via : Option Ctx) :
    Except PyErr CSResponse × CtxState :=
  match alget spec "method" with
  | none => (.error (.keyError "method"), s)
  | some mobj =>
    if pyStr mobj ∈ env.methods then
      match alget spec "kwargs" with
      | none => (.error (.keyError "kwargs"), s)
      | some _ =>
        match env.connectRes (pyStr mobj) via s.transport_calls.length with
        | .error e =>
          (.error e, { s with transport_calls := s.transport_calls ++ [pyStr mobj] })
        | .ok ctx =>
          let s1 : CtxState :=
            { s with transport_calls := s.transport_calls ++ [pyStr mobj] }
          match via with
          | some v =>
            match updateLru env.maxInterpreters s1 ctx v with
            | .error e => (.error e, s1)
            | .ok s2 => connectSeqRest env s2 key ctx
          | none => connectSeqRest env s1 key ctx
    else
      match alget spec "transport" with
      | none => (.error (.keyError "transport"), s)
      | some t => (.error (.mitogenError ("unsupported method: " ++ pyStr t)), s)

/-- Model of `ContextService._wait_or_start(spec, via)` followed by
`latch.get()`, for a single service thread with no concurrent callers.
A call that enrolls behind a pre-existing waiter list would block
forever here (nobody will produce); that outcome is modelled as the
distinguished error `PyErr.blocked`. -/
def waitOrStartSeq (env : SeqEnv) (s : CtxState)
    (spec : List (String × PyObj)) (via : Option Ctx) :
    Except PyErr SFVal × CtxState :=
  let key := keyFromKwargs (("via", viaRepr via) :: spec)
  match alget s.response_by_key key with
  | some r =>
    match alget s.refs_by_context r.context with
    | none => (.error (.keyError "refs_by_context"), s)
    | some n =>
      (.ok (.resp r),
        { s with refs_by_context := alset s.refs_by_context r.context (n + 1) })
  | none =>
    let latches := (alget s.latches_by_key key).getD []
    let s1 : CtxState :=
      { s with latches_by_key := alset s.latches_by_key key (latches ++ [0]) }
    if latches.isEmpty then
      match connectSeq env s1 key spec via with
      | (.ok resp, s2) =>
        match alget s2.latches_by_key key with
        | none => (.error (.keyError "latches_by_key"), s2)
        | some delivered =>
          let s3 : CtxState := { s2 with latches_by_key := alpop s2.latches_by_key key }
          let s4 : CtxState :=
            { s3 with response_by_key := alset s3.response_by_key key resp }
          match alget s4.refs_by_context resp.context with
          | none => (.error (.keyError "latches_by_key"), s4)
          | some n =>
            let refs2 := alset s4.refs_by_context resp.context (n + delivered.length)
            (.ok (.resp resp), { s4 with refs_by_context := refs2 })
      | (.error e, s2) =>
        match alget s2.latches_by_key key with
        | none => (.error (.keyError "latches_by_key"), s2)
        | some _ =>
          (.ok (.excT e), { s2 with latches_by_key := alpop s2.latches_by_key key })
    else
      (.error .blocked, s1)

/-- Loop of `ContextService.get` over the stack, threading `via` and
the local variable `result` (unbound at entry, modelled as `none`).
A result that is an `exc_info` tuple is re-raised; a StreamError —
raised directly or re-raised — returns the error dict naming the
failing method; other exceptions propagate. -/
def getLoop (env : SeqEnv) :
    List (List (String × PyObj)) → Option Ctx → Option CSResponse → CtxState →
    Except PyErr GetOut × CtxState
  | [], _, result, s =>
    match result with
    | none => (.error (.nameError "result"), s)
    | some r => (.ok (.resp r), s)
  | spec :: rest, via, _, s =>
    match waitOrStartSeq env s spec via with
    | (.ok (.resp r), s1) => getLoop env rest (some r.context) (some r) s1
    | (.ok (.excT e), s1) =>
      match e with
      | .streamError m =>
        match alget spec "method" with
        | none => (.error (.keyError "method"), s1)
        | some mobj => (.ok (.errDict (pyStr mobj) m), s1)
      | _ => (.error e, s1)
    | (.error e, s1) =>
      match e with
      | .streamError m =>
        match alget spec "method" with
        | none => (.error (.keyError "method"), s1)
        | some mobj => (.ok (.errDict (pyStr mobj) m), s1)
      | _ => (.error e, s1)

/-- Model of `ContextService.get(msg, stack)` for one service thread. -/
def getSeq (env : SeqEnv) (s : CtxState)
    (stack : List (List (String × PyObj))) : Except PyErr GetOut × CtxState :=
  getLoop env stack none none s

/-- C10: `ContextService.get` called with an empty stack reaches
`return result` with the local variable `result` unbound, so the call
raises (UnboundLocalError) and never returns a response dict — the
documented postcondition can only hold for non-empty stacks. -/
theorem get_empty_stack_unbound (env : SeqEnv) (s : CtxState) :
    getSeq env s [] = (.error (.nameError "result"), s) := rfl

/-- Environment for the C5 failing input: the router knows "ssh" and
"local" only. -/
def env5 : SeqEnv :=
  { methods := ["ssh", "local"],
    connectRes := fun _ _ i => .ok (i + 1),
    homeRes := fun _ => .ok "/root",
    maxInterpreters := 20 }

/-- Failing spec for C5: names the unknown transport "doas" and has
exactly the documented ConnectionSpec fields (method and kwargs). -/
def spec5 : List (String × PyObj) :=
  [("method", .pystr "doas"), ("kwargs", .pydict [])]

/-- C5: establishment for a spec naming an unknown transport raises
KeyError("transport") while formatting the intended "unsupported
method" message (the spec dict has no "transport" key), the failure is
delivered to the waiter and re-raised out of `get`; the transport was
never invoked and no cache entry, waiter entry or refcount remains. -/
theorem unsupported_method_bug :
    (getSeq env5 {} [spec5]).1 = .error (.keyError "transport")
    ∧ (getSeq env5 {} [spec5]).2.response_by_key = []
    ∧ (getSeq env5 {} [spec5]).2.transport_calls = []
    ∧ (getSeq env5 {} [spec5]).2.refs_by_context = []
    ∧ (getSeq env5 {} [spec5]).2.latches_by_key = [] := by
  have h : getSeq env5 {} [spec5] = (.error (.keyError "transport"), {}) := by
    simp [getSeq, getLoop, waitOrStartSeq, connectSeq, env5, spec5, pyStr,
      alget, alset, alpop]
  rw [h]
  exact ⟨rfl, rfl, rfl, rfl, rfl⟩

/-! ## FileService

State of one `FileService` instance plus observation fields for the
senders and file handles it has closed.  Files are identified by the
handle id the `open` in `fetch` produced; `streamOf` is the oracle for
`router.stream_by_id(sender.context.context_id)`. -/

/-- Result of `os.stat`; timestamps are fractional seconds. -/
structure StatRes where
  st_mode : Nat
  st_size : Nat
  st_uid : Nat
  st_gid : Nat
  st_mtime : Rat
  st_atime : Rat
deriving DecidableEq

/-- Metadata dict recorded by `FileService.register`. -/
structure FileMeta where
  size : Nat
  mode : Nat
  owner : Option String
  group : Option String
  mtime : Rat
  atime : Rat
deriving DecidableEq

/-- Oracles for the collaborators of FileService: `os.stat`,
`pwd.getpwuid(n).pw_name` and `grp.getgrgid(n).gr_name` (None models
the KeyError swallowed by `_name_or_none`), and stream resolution. -/
structure FSEnv where
  statRes : String → Except PyErr StatRes
  pwName : Nat → Option String
  grName : Nat → Option String
  streamOf : Nat → Nat

/-- Model of `stat.S_ISREG`: file-type bits equal `S_IFREG`. -/
def S_ISREG (m : Nat) : Bool := m &&& 61440 == 32768

structure FileSvc where
  metadata_by_path : List (String × FileMeta) := []
  queue : List (Nat × Nat) := []
  queueClosed : Bool := false
  pending_by_stream : List (Nat × List (Nat × Nat)) := []
  nextFp : Nat := 0
  closedSenders : List Nat := []
  closedFiles : List Nat := []
deriving DecidableEq

/-- Model of `FileService.register(path)`: a no-op for an already
registered path; otherwise `stat` the path, require a regular file,
and record the metadata dict.  Two source slips are reproduced
faithfully: the non-regular-file error path evaluates
`'%r is not a regular file.' % (in_path,)` where `in_path` is an
undefined name, raising NameError before the IOError is constructed;
and the owner/group lookups pass the literal `0`, not the file's
`st_uid`/`st_gid`. -/
def register (env : FSEnv) (s : FileSvc) (path : String) :
    Except PyErr Unit × FileSvc :=
  if (alget s.metadata_by_path path).isSome then (.ok (), s)
  else
    match env.statRes path with
    | .error e => (.error e, s)
    | .ok st =>
      if S_ISREG st.st_mode = false then (.error (.nameError "in_path"), s)
      else
        let md : FileMeta :=
          { size := st.st_size, mode := st.st_mode, owner := env.pwName 0,
            group := env.grName 0, mtime := st.st_mtime, atime := st.st_atime }
        (.ok (), { s with metadata_by_path := alset s.metadata_by_path path md })

/-- Model of `FileService.fetch(path, sender)`: an unregistered path
fails with CallError; otherwise open the file (fresh handle id), put
`(sender, fp)` on the scheduler's input latch and return the metadata
dict immediately.  Modelled from the spec: `mitogen.core.Latch` (not
under src/) rejects `put` after `close`; the spec's shutdown ordering
(pool threads are joined before `on_shutdown`) keeps this path
unreachable, it is included for totality. -/
def fetch (s : FileSvc) (path : String) (sender : Nat) :
    Except PyErr FileMeta × FileSvc :=
  match alget s.metadata_by_path path with
  | none => (.error (.callError "Path is not registered with FileService."), s)
  | some md =>
    let fp := s.nextFp
    let s1 : FileSvc := { s with nextFp := fp + 1 }
    if s1.queueClosed then (.error .latchError, s1)
    else (.ok md, { s1 with queue := s1.queue ++ [(sender, fp)] })

/-- Model of `FileService.on_shutdown`: mark the scheduler's input
queue closed. -/
def onShutdown (s : FileSvc) : FileSvc := { s with queueClosed := true }

/-- Model of `FileService._sleep_on_queue()`.  Modelled from the spec
for the Latch behaviour (`mitogen.core.Latch` is not under src/):
once the queue is closed, `get` raises LatchError — spec 4.7 step 1,
"If the queue is closed, exit to shutdown drain" — so items still
sitting in the queue are not retrieved and the function returns False.
An empty open queue is the timeout path (returns True).  Otherwise one
item is moved to the owning stream's FIFO. -/
def sleepOnQueue (env : FSEnv) (s : FileSvc) : Bool × FileSvc :=
  if s.queueClosed then (false, s)
  else
    match s.queue with
    | [] => (true, s)
    | (sender, fp) :: rest =>
      let stream := env.streamOf sender
      let fifo := (alget s.pending_by_stream stream).getD []
      let pend2 := alset s.pending_by_stream stream (fifo ++ [(sender, fp)])
      (true, { s with queue := rest, pending_by_stream := pend2 })

/-- Model of the shutdown drain at the end of
`FileService._scheduler_main`: for every pending `(sender, fp)` across
all per-stream FIFOs, close the sender and close the file.  Entries
still in the input queue are not visited. -/
def schedulerDrain (s : FileSvc) : FileSvc :=
  let snds := s.pending_by_stream.foldl (fun acc p => acc ++ p.2.map Prod.fst) []
  let fps := s.pending_by_stream.foldl (fun acc p => acc ++ p.2.map Prod.snd) []
  { s with closedSenders := s.closedSenders ++ snds, closedFiles := s.closedFiles ++ fps }

theorem alget_mem {κ β : Type} [DecidableEq κ] {l : List (κ × β)} {k : κ} {v : β}
    (h : alget l k = some v) : (k, v) ∈ l := by
  induction l with
  | nil => simp [alget] at h
  | cons kv t ih =>
    obtain ⟨k1, v1⟩ := kv
    by_cases hk : k1 = k
    · subst hk
      simp only [alget, if_true, eq_self_iff_true, Option.some.injEq] at h
      rw [← h]
      exact List.mem_cons_self _ _
    · simp only [alget, hk, if_false] at h
      exact List.mem_cons_of_mem _ (ih h)

theorem foldl_append_mem {α β : Type} (f : α → List β) (l : List α) (a : List β)
    (y : β) : y ∈ l.foldl (fun acc p => acc ++ f p) a ↔ y ∈ a ∨ ∃ p ∈ l, y ∈ f p := by
  induction l generalizing a with
  | nil => simp
  | cons x t ih =>
    simp only [List.foldl_cons, ih, List.mem_append, List.mem_cons]
    constructor
    · rintro (⟨h | h⟩ | ⟨p, hp, hy⟩)
      · exact Or.inl h
      · exact Or.inr ⟨x, Or.inl rfl, h⟩
      · exact Or.inr ⟨p, Or.inr hp, hy⟩
    · rintro (h | ⟨p, rfl | hp, hy⟩)
      · exact Or.inl (Or.inl h)
      · exact Or.inl (Or.inr hy)
      · exact Or.inr ⟨p, hp, hy⟩

/-- Oracle environment for the FileService theorems: every path stats
as a regular file of 4 bytes owned by uid 1000 / gid 1000; account 0
is root/rootgrp, account 1000 is alice/staff; every sender lives on
stream 3. -/
def fsEnvA : FSEnv :=
  { statRes := fun _ =>
      .ok { st_mode := 33188, st_size := 4, st_uid := 1000, st_gid := 1000,
            st_mtime := 3/2, st_atime := 2 },
    pwName := fun n =>
      if n = 0 then some "root" else if n = 1000 then some "alice" else none,
    grName := fun n =>
      if n = 0 then some "rootgrp" else if n = 1000 then some "staff" else none,
    streamOf := fun _ => 3 }

/-- Oracle environment where every path stats as a directory
(mode 0o40755). -/
def fsEnvDir : FSEnv :=
  { statRes := fun _ =>
      .ok { st_mode := 16877, st_size := 4096, st_uid := 0, st_gid := 0,
            st_mtime := 1, st_atime := 1 },
    pwName := fun _ => some "root",
    grName := fun _ => some "rootgrp",
    streamOf := fun _ => 0 }

/-- C6: registering a path whose stat mode is a directory raises
NameError("in_path") — the source's error path references the
undefined name `in_path` instead of raising the intended IOError
naming the offending path — and no metadata entry is recorded. -/
theorem register_not_regular_file_bug :
    (register fsEnvDir {} "/tmp").1 = .error (.nameError "in_path")
    ∧ (register fsEnvDir {} "/tmp").2.metadata_by_path = [] :=
  ⟨by decide, by decide⟩

/-- C7: for a file owned by uid 1000 ("alice") and gid 1000 ("staff"),
the metadata dict later returned by fetch carries size, mode, mtime
and atime faithfully from stat, but its owner and group are the names
of uid 0 and gid 0 ("root"/"rootgrp") — the source passes the literal
0 to `_name_or_none` instead of `st.st_uid`/`st.st_gid`. -/
theorem metadata_owner_group_bug :
    (fetch (register fsEnvA {} "/data").2 "/data" 9).1
      = .ok { size := 4, mode := 33188, owner := some "root",
              group := some "rootgrp", mtime := 3/2, atime := 2 }
    ∧ fsEnvA.statRes "/data"
      = .ok { st_mode := 33188, st_size := 4, st_uid := 1000, st_gid := 1000,
              st_mtime := 3/2, st_atime := 2 }
    ∧ fsEnvA.pwName 1000 = some "alice"
    ∧ fsEnvA.grName 1000 = some "staff"
    ∧ (some "root" : Option String) ≠ some "alice"
    ∧ (some "rootgrp" : Option String) ≠ some "staff" :=
  ⟨rfl, rfl, by decide, by decide, by decide, by decide⟩

/-- FileService state after one fetch of a registered path by sender 5
whose request still sits in the input queue. -/
def fs8 : FileSvc := (fetch (register fsEnvA {} "/data").2 "/data" 5).2

/-- C8 counterexample: `fetch` enqueued sender 5; `on_shutdown` closes
the input queue before the scheduler moved the item to a per-stream
FIFO; the sleep step observes closure (LatchError) without retrieving
the item, and the shutdown drain closes nothing — sender 5 is never
closed and its entry still sits in the abandoned input queue, refuting
"including requests still sitting in the input queue that were never
moved into a per-stream FIFO". -/
theorem shutdown_closure_counterexample :
    (sleepOnQueue fsEnvA (onShutdown fs8)).1 = false
    ∧ (schedulerDrain (sleepOnQueue fsEnvA (onShutdown fs8)).2).closedSenders = []
    ∧ (schedulerDrain (sleepOnQueue fsEnvA (onShutdown fs8)).2).closedFiles = []
    ∧ (schedulerDrain (sleepOnQueue fsEnvA (onShutdown fs8)).2).queue = [(5, 0)] :=
  ⟨by decide, by decide, by decide, by decide⟩

/-- C8 (amended): once `on_shutdown` has closed the input queue, the
scheduler's sleep step exits to the shutdown drain without retrieving
queued items, and the drain closes exactly the senders and files held
in the per-stream FIFOs: every FIFO entry's sender and file are
closed, the input queue is left untouched, and no sender outside the
FIFOs is newly closed. -/
theorem shutdown_drain_amended (env : FSEnv) (s : FileSvc)
    (h : s.queueClosed = true) :
    sleepOnQueue env s = (false, s)
    ∧ (∀ strm fifo, alget s.pending_by_stream strm = some fifo →
        ∀ sf ∈ fifo, sf.1 ∈ (schedulerDrain s).closedSenders
          ∧ sf.2 ∈ (schedulerDrain s).closedFiles)
    ∧ (schedulerDrain s).queue = s.queue
    ∧ ∀ x ∈ (schedulerDrain s).closedSenders,
        x ∈ s.closedSenders ∨ ∃ p ∈ s.pending_by_stream, x ∈ p.2.map Prod.fst := by
  refine ⟨?_, ?_, rfl, ?_⟩
  · simp [sleepOnQueue, h]
  · intro strm fifo hget sf hsf
    have hmem := alget_mem hget
    constructor
    · simp only [schedulerDrain, List.mem_append]
      right
      exact (foldl_append_mem _ _ _ _).mpr
        (Or.inr ⟨(strm, fifo), hmem, List.mem_map_of_mem Prod.fst hsf⟩)
    · simp only [schedulerDrain, List.mem_append]
      right
      exact (foldl_append_mem _ _ _ _).mpr
        (Or.inr ⟨(strm, fifo), hmem, List.mem_map_of_mem Prod.snd hsf⟩)
  · intro x hx
    simp only [schedulerDrain, List.mem_append] at hx
    rcases hx with hx | hx
    · exact Or.inl hx
    · rcases (foldl_append_mem _ _ _ _).mp hx with h2 | ⟨p, hp, hxp⟩
      · simp at h2
      · exact Or.inr ⟨p, hp, hxp⟩

/-- Closed FileService state with sender 5 / file 0 pending on stream
3 and sender 6 / file 1 abandoned in the input queue. -/
def fsPend : FileSvc :=
  { queueClosed := true, queue := [(6, 1)], pending_by_stream := [(3, [(5, 0)])] }

/-- C8 witness: the amended drain behaviour at a concrete closed
state. -/
theorem shutdown_drain_witness :
    sleepOnQueue fsEnvA fsPend = (false, fsPend)
    ∧ (∀ strm fifo, alget fsPend.pending_by_stream strm = some fifo →
        ∀ sf ∈ fifo, sf.1 ∈ (schedulerDrain fsPend).closedSenders
          ∧ sf.2 ∈ (schedulerDrain fsPend).closedFiles)
    ∧ (schedulerDrain fsPend).queue = fsPend.queue
    ∧ ∀ x ∈ (schedulerDrain fsPend).closedSenders,
        x ∈ fsPend.closedSenders ∨ ∃ p ∈ fsPend.pending_by_stream, x ∈ p.2.map Prod.fst :=
  shutdown_drain_amended fsEnvA fsPend rfl

/-! ## Single-flight machine for `_wait_or_start` (C1)

Interleaved execution of k service threads calling `get` for one and
the same fingerprint key, starting from an empty service state.  The
atomic steps are the two lock-protected critical sections of
`_wait_or_start` plus the unlocked statements between them, split
where another thread can observe intermediate state:

* `enroll` — the first critical section (lock held): on a cache hit,
  bump the context's refcount and deliver the cached response to the
  fresh latch; on a miss, append the latch to the key's waiter list,
  the appender becoming first when the list was empty.
* `connect` — `_connect(key, spec)`.  Its writes touch only entries
  keyed by the freshly created context, which no other modelled step
  reads before `produce`, so it is one step; the transport-method
  invocation (counted in `calls`) and its outcome — a context, or a
  StreamError raised by the method — happen here.  The single-key
  scenario uses no via, so the LRU branch is not entered.
* `produce` — `_produce_response` (lock held): pop the waiter list and
  deliver the response (or the `exc_info` of the failure) to every
  latch in it.
* `record` — the unlocked statement `_response_by_key[key] = response`.
* `bump` — the unlocked statement
  `_refs_by_context[response[context]] += count`.

Thread t's freshly created context id is t itself. -/

/-- Program counter of one thread inside `_wait_or_start`. -/
inductive SFpc where
  | start
  | connect
  | produce (r : CSResponse)
  | produceErr (e : PyErr)
  | record (r : CSResponse) (count : Nat)
  | bump (r : CSResponse) (count : Nat)
  | waiting
  | done
  | doneHit
deriving DecidableEq

/-- Shared state for the single key plus per-thread program counters.
`cached` is `_response_by_key[key]`, `latches` is `_latches_by_key[key]`
(absent or present), `refs` is `_refs_by_context`, `kbc` the contexts
recorded in `_key_by_context`, `latchVals` the values delivered to each
thread's latch, `calls` the number of transport-method invocations. -/
structure SFCfg where
  cached : Option CSResponse := none
  latches : Option (List Nat) := none
  refs : List (Ctx × Nat) := []
  kbc : List Ctx := []
  latchVals : List (Nat × SFVal) := []
  calls : Nat := 0
  pcs : List SFpc := []
deriving DecidableEq

/-- Scheduler actions: which thread performs its next atomic step. -/
inductive SFAct where
  | enroll (t : Nat)
  | connect (t : Nat)
  | produce (t : Nat)
  | record (t : Nat)
  | bump (t : Nat)
deriving DecidableEq

/-- Response built by `_connect` on thread t (context id t, home dir
from the `expanduser` round trip). -/
def mkResp (t : Nat) : CSResponse := { context := t, home_dir := "~" }

/-- Failure outcome of `_connect`: the transport method raised. -/
def sfFailure : PyErr := .streamError "connect failed"

/-- One atomic step of the machine; `none` when the action is not
enabled (the thread's program counter does not match, or a dict lookup
the source performs would raise).  `ok` is the establishment outcome
oracle: whether the transport method returns a context or raises. -/
def sfStep (ok : Bool) (c : SFCfg) : SFAct → Option SFCfg
  | .enroll t =>
    match c.pcs[t]? with
    | some .start =>
      match c.cached with
      | some r =>
        match alget c.refs r.context with
        | some n =>
          let c1 : SFCfg := { c with refs := alset c.refs r.context (n + 1) }
          let c2 : SFCfg := { c1 with latchVals := c1.latchVals ++ [(t, SFVal.resp r)] }
          some { c2 with pcs := c2.pcs.set t SFpc.doneHit }
        | none => none
      | none =>
        let L := c.latches.getD []
        let c1 : SFCfg := { c with latches := some (L ++ [t]) }
        some { c1 with pcs := c1.pcs.set t (if L.isEmpty then SFpc.connect else SFpc.waiting) }
    | _ => none
  | .connect t =>
    match c.pcs[t]? with
    | some .connect =>
      if ok then
        let c1 : SFCfg := { c with calls := c.calls + 1, refs := alset c.refs t 0 }
        let c2 : SFCfg := { c1 with kbc := c1.kbc ++ [t] }
        some { c2 with pcs := c2.pcs.set t (SFpc.produce (mkResp t)) }
      else
        let c1 : SFCfg := { c with calls := c.calls + 1 }
        some { c1 with pcs := c1.pcs.set t (SFpc.produceErr sfFailure) }
    | _ => none
  | .produce t =>
    match c.pcs[t]? with
    | some (.produce r) =>
      match c.latches with
      | some L =>
        let c1 : SFCfg := { c with latches := none }
        let c2 : SFCfg :=
          { c1 with latchVals := c1.latchVals ++ L.map (fun l => (l, SFVal.resp r)) }
        some { c2 with pcs := c2.pcs.set t (SFpc.record r L.length) }
      | none => none
    | some (.produceErr e) =>
      match c.latches with
      | some L =>
        let c1 : SFCfg := { c with latches := none }
        let c2 : SFCfg :=
          { c1 with latchVals := c1.latchVals ++ L.map (fun l => (l, SFVal.excT e)) }
        some { c2 with pcs := c2.pcs.set t SFpc.done }
      | none => none
    | _ => none
  | .record t =>
    match c.pcs[t]? with
    | some (.record r n) =>
      let c1 : SFCfg := { c with cached := some r }
      some { c1 with pcs := c1.pcs.set t (SFpc.bump r n) }
    | _ => none
  | .bump t =>
    match c.pcs[t]? with
    | some (.bump r n) =>
      match alget c.refs r.context with
      | some m =>
        let c1 : SFCfg := { c with refs := alset c.refs r.context (m + n) }
        some { c1 with pcs := c1.pcs.set t SFpc.done }
      | none => none
    | _ => none

/-- Run a schedule; fails when a scheduled action is not enabled. -/
def sfRun (ok : Bool) : SFCfg → List SFAct → Option SFCfg
  | c, [] => some c
  | c, a :: rest =>
    match sfStep ok c a with
    | some c2 => sfRun ok c2 rest
    | none => none

/-- Initial configuration: empty tables, k threads about to call
`_wait_or_start` for the same key. -/
def sfInit (k : Nat) : SFCfg := { pcs := List.replicate k SFpc.start }

/-- The schedule exhibiting the window: thread 1 enrolls after thread
0's `produce` delivered the response but before thread 0's `record`
published it in `_response_by_key`. -/
def ceSched : List SFAct :=
  [.enroll 0, .connect 0, .produce 0, .enroll 1, .record 0, .bump 0,
   .connect 1, .produce 1, .record 1, .bump 1]

/-- C1 counterexample: in schedule `ceSched`, thread 1's `get` arrives
after thread 0's response has been delivered to the waiters but before
it is recorded in the cache; thread 1 misses the cache-hit branch (its
pc ends at `done`, never `doneHit`), becomes a new first waiter, and
the transport method for the same fingerprint is invoked a second time
— the two waiters even receive different contexts.  This refutes the
claim's "no window" sentence. -/
theorem single_flight_window_counterexample :
    (sfRun true (sfInit 2) ceSched).map SFCfg.calls = some 2
    ∧ (sfRun true (sfInit 2) ceSched).map (fun c => c.pcs[1]?)
      = some (some SFpc.done)
    ∧ (sfRun true (sfInit 2) ceSched).map (fun c => alget c.latchVals 0)
      = some (some (.resp (mkResp 0)))
    ∧ (sfRun true (sfInit 2) ceSched).map (fun c => alget c.latchVals 1)
      = some (some (.resp (mkResp 1)))
    ∧ mkResp 0 ≠ mkResp 1 :=
  ⟨by decide, by decide, by decide, by decide, by decide⟩

/-- Thread t's program counter (default value for out-of-range t). -/
def pcOf (c : SFCfg) (t : Nat) : SFpc := (c.pcs[t]?).getD SFpc.done

theorem getD_set_self {α : Type} (l : List α) (t : Nat) (p q : α)
    (h : t < l.length) : ((l.set t p)[t]?).getD q = p := by
  rw [List.getElem?_set_self]
  · simp [h]
  · exact h

theorem getD_set_ne {α : Type} (l : List α) (t x : Nat) (p q : α)
    (h : t ≠ x) : ((l.set t p)[x]?).getD q = (l[x]?).getD q := by
  rw [List.getElem?_set_ne h]

theorem nodup_concat {α : Type} {E : List α} {t : α}
    (h1 : E.Nodup) (h2 : t ∉ E) : (E ++ [t]).Nodup := by
  simp [List.nodup_append, h1, h2]

theorem alget_map_const {v : SFVal} {W : List Nat} {t : Nat} (h : t ∈ W) :
    alget (W.map fun l => (l, v)) t = some v := by
  induction W with
  | nil => simp at h
  | cons w ws ih =>
    rcases List.mem_cons.mp h with rfl | h2
    · simp [alget]
    · by_cases hw : w = t
      · simp [alget, hw]
      · simp only [List.map_cons, alget, hw, if_false]
        exact ih h2

/-- State of the sole establishing thread while the waiter list for the
key still exists: about to call `_connect`, or holding the response
about to produce, or holding the failure about to produce. -/
def headState (ok : Bool) (c : SFCfg) (t0 : Nat) : Prop :=
  (pcOf c t0 = SFpc.connect ∧ c.calls = 0 ∧ c.refs = [] ∧ c.kbc = [])
  ∨ (ok = true ∧ pcOf c t0 = SFpc.produce (mkResp t0) ∧ c.calls = 1
      ∧ c.refs = [(t0, 0)] ∧ c.kbc = [t0])
  ∨ (ok = false ∧ pcOf c t0 = SFpc.produceErr sfFailure ∧ c.calls = 1
      ∧ c.refs = [] ∧ c.kbc = [])

/-- Phase A invariant: no `produce` has run yet; E is the list of
enrolled threads in enrollment order (the waiter list). -/
structure InvA (k : Nat) (ok : Bool) (E : List Nat) (c : SFCfg) : Prop where
  plen : c.pcs.length = k
  cached : c.cached = none
  lv : c.latchVals = []
  nodup : E.Nodup
  bound : ∀ t ∈ E, t < k
  latch : c.latches = if E = [] then none else some E
  unenrolled : ∀ t, t < k → t ∉ E → pcOf c t = SFpc.start
  empt : E = [] → c.calls = 0 ∧ c.refs = [] ∧ c.kbc = []
  tail_wait : ∀ t0 ts, E = t0 :: ts → ∀ t ∈ ts, pcOf c t = SFpc.waiting
  head_state : ∀ t0 ts, E = t0 :: ts → headState ok c t0

/-- Phase B stages after a successful produce: before `record`, after
`record` / before `bump`, and complete. -/
def stageState (W : List Nat) (t0 : Nat) (stage : Nat) (c : SFCfg) : Prop :=
  (stage = 0 ∧ pcOf c t0 = SFpc.record (mkResp t0) W.length ∧ c.cached = none
    ∧ c.refs = [(t0, 0)])
  ∨ (stage = 1 ∧ pcOf c t0 = SFpc.bump (mkResp t0) W.length
    ∧ c.cached = some (mkResp t0) ∧ c.refs = [(t0, 0)])
  ∨ (stage = 2 ∧ pcOf c t0 = SFpc.done ∧ c.cached = some (mkResp t0)
    ∧ c.refs = [(t0, W.length)])

/-- Phase B invariant (successful establishment delivered to the
waiter set W by thread t0). -/
structure InvB (k : Nat) (W : List Nat) (t0 : Nat) (stage : Nat) (c : SFCfg) : Prop where
  plen : c.pcs.length = k
  nodup : W.Nodup
  bound : ∀ t ∈ W, t < k
  t0W : t0 ∈ W
  latch : c.latches = none
  lv : c.latchVals = W.map fun l => (l, SFVal.resp (mkResp t0))
  calls : c.calls = 1
  kbc : c.kbc = [t0]
  unenrolled : ∀ t, t < k → t ∉ W → pcOf c t = SFpc.start
  others : ∀ t ∈ W, t ≠ t0 → pcOf c t = SFpc.waiting
  stg : stageState W t0 stage c

/-- Failure-phase invariant (the failure was delivered to the waiter
set W by thread t0; nothing was cached or recorded). -/
structure InvF (k : Nat) (W : List Nat) (t0 : Nat) (c : SFCfg) : Prop where
  plen : c.pcs.length = k
  nodup : W.Nodup
  bound : ∀ t ∈ W, t < k
  t0W : t0 ∈ W
  latch : c.latches = none
  lv : c.latchVals = W.map fun l => (l, SFVal.excT sfFailure)
  calls : c.calls = 1
  kbc : c.kbc = []
  refs : c.refs = []
  cached : c.cached = none
  unenrolled : ∀ t, t < k → t ∉ W → pcOf c t = SFpc.start
  others : ∀ t ∈ W, t ≠ t0 → pcOf c t = SFpc.waiting
  pc0 : pcOf c t0 = SFpc.done

theorem invA_init (k : Nat) (ok : Bool) : InvA k ok [] (sfInit k) := by
  refine ⟨?_, rfl, rfl, List.nodup_nil, ?_, rfl, ?_, ?_, ?_, ?_⟩
  · simp [sfInit]
  · intro t ht
    simp at ht
  · intro t ht _
    simp [pcOf, sfInit, List.getElem?_replicate, ht]
  · intro _
    exact ⟨rfl, rfl, rfl⟩
  · intro t0 ts h
    simp at h
  · intro t0 ts h
    simp at h

theorem invA_enroll {k : Nat} {ok : Bool} {E : List Nat} {c c2 : SFCfg} {t : Nat}
    (h : InvA k ok E c) (hstep : sfStep ok c (.enroll t) = some c2) :
    t < k ∧ t ∉ E ∧ InvA k ok (E ++ [t]) c2 := by
  cases hpc : c.pcs[t]? with
  | none => simp [sfStep, hpc] at hstep
  | some pc =>
    cases pc with
    | connect => simp [sfStep, hpc] at hstep
    | produce r => simp [sfStep, hpc] at hstep
    | produceErr e => simp [sfStep, hpc] at hstep
    | record r n => simp [sfStep, hpc] at hstep
    | bump r n => simp [sfStep, hpc] at hstep
    | waiting => simp [sfStep, hpc] at hstep
    | done => simp [sfStep, hpc] at hstep
    | doneHit => simp [sfStep, hpc] at hstep
    | start =>
      have htlen : t < c.pcs.length := (List.getElem?_eq_some_iff.mp hpc).1
      have htk : t < k := by rw [h.plen] at htlen; exact htlen
      have hpct : pcOf c t = SFpc.start := by simp [pcOf, hpc]
      have hnotE : t ∉ E := by
        intro hmem
        cases hE : E with
        | nil => rw [hE] at hmem; simp at hmem
        | cons t0 ts =>
          rw [hE] at hmem
          rcases List.mem_cons.mp hmem with rfl | hts
          · rcases h.head_state t ts hE with ⟨hh, _⟩ | ⟨_, hh, _⟩ | ⟨_, hh, _⟩ <;>
              rw [hpct] at hh <;> exact SFpc.noConfusion hh
          · have hw := h.tail_wait t0 ts hE t hts
            rw [hpct] at hw
            exact SFpc.noConfusion hw
      have hlam : c.latches.getD [] = E := by
        rw [h.latch]
        by_cases hE : E = [] <;> simp [hE]
      simp only [sfStep, hpc, h.cached] at hstep
      rw [hlam] at hstep
      rw [Option.some.injEq] at hstep
      subst hstep
      refine ⟨htk, hnotE, ?_⟩
      refine ⟨?_, rfl, h.lv, nodup_concat h.nodup hnotE, ?_, ?_, ?_, ?_, ?_, ?_⟩
      · simp [List.length_set, h.plen]
      · intro x hx
        rcases List.mem_append.mp hx with hx | hx
        · exact h.bound x hx
        · rw [List.mem_singleton.mp hx]; exact htk
      · have : ¬ (E ++ [t] = []) := by simp
        simp [this]
      · intro x hxk hxmem
        have hxE : x ∉ E := fun hc => hxmem (List.mem_append.mpr (Or.inl hc))
        have hxt : t ≠ x := fun hc =>
          hxmem (List.mem_append.mpr (Or.inr (by rw [hc]; exact List.mem_singleton_self _)))
        show ((c.pcs.set t _)[x]?).getD _ = _
        rw [getD_set_ne _ _ _ _ _ hxt]
        exact h.unenrolled x hxk hxE
      · intro hc
        simp at hc
      · intro t0 ts hE2
        intro x hx
        cases hE : E with
        | nil =>
          rw [hE] at hE2
          simp only [List.nil_append] at hE2
          rw [List.cons.injEq] at hE2
          obtain ⟨h1, h2⟩ := hE2
          rw [← h2] at hx
          simp at hx
        | cons e0 es =>
          rw [hE] at hE2
          rw [List.cons_append, List.cons.injEq] at hE2
          obtain ⟨h1, h2⟩ := hE2
          subst h1
          rw [← h2] at hx
          rcases List.mem_append.mp hx with hxs | hxt
          · have hxE : x ∈ E := by rw [hE]; exact List.mem_cons_of_mem _ hxs
            have hxt2 : t ≠ x := fun hc => hnotE (hc ▸ hxE)
            show ((c.pcs.set t _)[x]?).getD _ = _
            rw [getD_set_ne _ _ _ _ _ hxt2]
            exact h.tail_wait e0 es hE x hxs
          · rw [List.mem_singleton.mp hxt]
            show ((c.pcs.set t _)[t]?).getD _ = _
            rw [getD_set_self _ _ _ _ htlen]
            simp [hE]
      · intro t0 ts hE2
        cases hE : E with
        | nil =>
          rw [hE] at hE2
          simp only [List.nil_append] at hE2
          rw [List.cons.injEq] at hE2
          obtain ⟨h1, h2⟩ := hE2
          left
          subst h1
          refine ⟨?_, (h.empt hE).1, (h.empt hE).2.1, (h.empt hE).2.2⟩
          show ((c.pcs.set t _)[t]?).getD _ = _
          rw [getD_set_self _ _ _ _ htlen]
          simp [hE]
        | cons e0 es =>
          rw [hE] at hE2
          rw [List.cons_append, List.cons.injEq] at hE2
          obtain ⟨h1, h2⟩ := hE2
          subst h1
          have ht0E : e0 ∈ E := by rw [hE]; exact List.mem_cons_self _ _
          have htne : t ≠ e0 := fun hc => hnotE (hc ▸ ht0E)
          have hpcs : ∀ p : SFpc, ((c.pcs.set t p)[e0]?).getD SFpc.done = pcOf c e0 :=
            fun p => getD_set_ne _ _ _ _ _ htne
          rcases h.head_state e0 es hE with ⟨hh, h3, h4, h5⟩ | ⟨hok, hh, h3, h4, h5⟩ |
            ⟨hok, hh, h3, h4, h5⟩
          · left
            refine ⟨?_, h3, h4, h5⟩
            show ((c.pcs.set t _)[e0]?).getD _ = _
            rw [hpcs]
            exact hh
          · right; left
            refine ⟨hok, ?_, h3, h4, h5⟩
            show ((c.pcs.set t _)[e0]?).getD _ = _
            rw [hpcs]
            exact hh
          · right; right
            refine ⟨hok, ?_, h3, h4, h5⟩
            show ((c.pcs.set t _)[e0]?).getD _ = _
            rw [hpcs]
            exact hh

theorem head_of_nonstart {k : Nat} {ok : Bool} {E : List Nat} {c : SFCfg} {t : Nat}
    (h : InvA k ok E c) (htk : t < k)
    (hpc1 : pcOf c t ≠ SFpc.start) (hpc2 : pcOf c t ≠ SFpc.waiting) :
    ∃ es, E = t :: es := by
  cases hE : E with
  | nil => exact absurd (h.unenrolled t htk (by rw [hE]; simp)) hpc1
  | cons e0 es =>
    by_cases hmem : t ∈ E
    · rw [hE] at hmem
      rcases List.mem_cons.mp hmem with rfl | hts
      · exact ⟨es, rfl⟩
      · exact absurd (h.tail_wait e0 es hE t hts) hpc2
    · exact absurd (h.unenrolled t htk hmem) hpc1

theorem invA_connect {k : Nat} {ok : Bool} {E : List Nat} {c c2 : SFCfg} {t : Nat}
    (h : InvA k ok E c) (hstep : sfStep ok c (.connect t) = some c2) :
    InvA k ok E c2 := by
  cases hpc : c.pcs[t]? with
  | none => simp [sfStep, hpc] at hstep
  | some pc =>
    cases pc with
    | start => simp [sfStep, hpc] at hstep
    | produce r => simp [sfStep, hpc] at hstep
    | produceErr e => simp [sfStep, hpc] at hstep
    | record r n => simp [sfStep, hpc] at hstep
    | bump r n => simp [sfStep, hpc] at hstep
    | waiting => simp [sfStep, hpc] at hstep
    | done => simp [sfStep, hpc] at hstep
    | doneHit => simp [sfStep, hpc] at hstep
    | connect =>
      have htlen : t < c.pcs.length := (List.getElem?_eq_some_iff.mp hpc).1
      have htk : t < k := by rw [h.plen] at htlen; exact htlen
      have hpct : pcOf c t = SFpc.connect := by simp [pcOf, hpc]
      obtain ⟨es, hE⟩ := head_of_nonstart h htk
        (by rw [hpct]; exact fun hc => SFpc.noConfusion hc)
        (by rw [hpct]; exact fun hc => SFpc.noConfusion hc)
      rcases h.head_state t es hE with ⟨_, h3, h4, h5⟩ | ⟨_, hh, _⟩ | ⟨_, hh, _⟩
      · have htes : t ∉ es := by
          have := h.nodup
          rw [hE] at this
          exact (List.nodup_cons.mp this).1
        cases hok : ok with
        | true =>
          simp only [sfStep, hpc, hok, if_true] at hstep
          rw [Option.some.injEq] at hstep
          subst hstep
          refine ⟨by simp [List.length_set, h.plen], h.cached, h.lv, h.nodup, h.bound,
            h.latch, ?_, ?_, ?_, ?_⟩
          · intro x hxk hxmem
            have hxt : t ≠ x := by
              intro hc
              exact hxmem (by rw [← hc, hE]; exact List.mem_cons_self _ _)
            show ((c.pcs.set t _)[x]?).getD _ = _
            rw [getD_set_ne _ _ _ _ _ hxt]
            exact h.unenrolled x hxk hxmem
          · intro hc
            rw [hE] at hc
            exact absurd hc (by simp)
          · intro t0 ts hE2
            intro x hx
            rw [hE] at hE2
            rw [List.cons.injEq] at hE2
            obtain ⟨h1, h2⟩ := hE2
            subst h1
            rw [← h2] at hx
            have hxt : t ≠ x := fun hc => htes (hc ▸ hx)
            show ((c.pcs.set t _)[x]?).getD _ = _
            rw [getD_set_ne _ _ _ _ _ hxt]
            exact h.tail_wait t es hE x hx
          · intro t0 ts hE2
            rw [hE] at hE2
            rw [List.cons.injEq] at hE2
            obtain ⟨h1, h2⟩ := hE2
            subst h1
            right; left
            refine ⟨rfl, ?_, ?_, ?_, ?_⟩
            · show ((c.pcs.set t _)[t]?).getD _ = _
              rw [getD_set_self _ _ _ _ htlen]
            · show c.calls + 1 = 1
              rw [h3]
            · show alset c.refs t 0 = _
              rw [h4]
              rfl
            · show c.kbc ++ [t] = [t]
              rw [h5]
              rfl
        | false =>
          simp only [sfStep, hpc, hok, Bool.false_eq_true, if_false] at hstep
          rw [Option.some.injEq] at hstep
          subst hstep
          refine ⟨by simp [List.length_set, h.plen], h.cached, h.lv, h.nodup, h.bound,
            h.latch, ?_, ?_, ?_, ?_⟩
          · intro x hxk hxmem
            have hxt : t ≠ x := by
              intro hc
              exact hxmem (by rw [← hc, hE]; exact List.mem_cons_self _ _)
            show ((c.pcs.set t _)[x]?).getD _ = _
            rw [getD_set_ne _ _ _ _ _ hxt]
            exact h.unenrolled x hxk hxmem
          · intro hc
            rw [hE] at hc
            exact absurd hc (by simp)
          · intro t0 ts hE2
            intro x hx
            rw [hE] at hE2
            rw [List.cons.injEq] at hE2
            obtain ⟨h1, h2⟩ := hE2
            subst h1
            rw [← h2] at hx
            have hxt : t ≠ x := fun hc => htes (hc ▸ hx)
            show ((c.pcs.set t _)[x]?).getD _ = _
            rw [getD_set_ne _ _ _ _ _ hxt]
            exact h.tail_wait t es hE x hx
          · intro t0 ts hE2
            rw [hE] at hE2
            rw [List.cons.injEq] at hE2
            obtain ⟨h1, h2⟩ := hE2
            subst h1
            right; right
            refine ⟨rfl, ?_, ?_, h4, h5⟩
            · show ((c.pcs.set t _)[t]?).getD _ = _
              rw [getD_set_self _ _ _ _ htlen]
            · show c.calls + 1 = 1
              rw [h3]
      · rw [hpct] at hh
        exact absurd hh.symm (fun hc => SFpc.noConfusion hc)
      · rw [hpct] at hh
        exact absurd hh.symm (fun hc => SFpc.noConfusion hc)

theorem invA_produce {k : Nat} {ok : Bool} {E : List Nat} {c c2 : SFCfg} {t : Nat}
    (h : InvA k ok E c) (hstep : sfStep ok c (.produce t) = some c2) :
    (ok = true ∧ InvB k E t 0 c2) ∨ (ok = false ∧ InvF k E t c2) := by
  cases hpc : c.pcs[t]? with
  | none => simp [sfStep, hpc] at hstep
  | some pc =>
    cases pc with
    | start => simp [sfStep, hpc] at hstep
    | connect => simp [sfStep, hpc] at hstep
    | record r n => simp [sfStep, hpc] at hstep
    | bump r n => simp [sfStep, hpc] at hstep
    | waiting => simp [sfStep, hpc] at hstep
    | done => simp [sfStep, hpc] at hstep
    | doneHit => simp [sfStep, hpc] at hstep
    | produce r =>
      have htlen : t < c.pcs.length := (List.getElem?_eq_some_iff.mp hpc).1
      have htk : t < k := by rw [h.plen] at htlen; exact htlen
      have hpct : pcOf c t = SFpc.produce r := by simp [pcOf, hpc]
      obtain ⟨es, hE⟩ := head_of_nonstart h htk
        (by rw [hpct]; exact fun hc => SFpc.noConfusion hc)
        (by rw [hpct]; exact fun hc => SFpc.noConfusion hc)
      have htes : t ∉ es := by
        have := h.nodup
        rw [hE] at this
        exact (List.nodup_cons.mp this).1
      have hlat : c.latches = some E := by
        rw [h.latch, hE]
        simp
      rcases h.head_state t es hE with ⟨hh, _⟩ | ⟨hok, hh, h3, h4, h5⟩ | ⟨_, hh, _⟩
      · rw [hpct] at hh
        exact absurd hh (fun hc => SFpc.noConfusion hc)
      · have hr : r = mkResp t := by
          rw [hpct] at hh
          exact (SFpc.produce.injEq _ _).mp hh
        subst hr
        left
        simp only [sfStep, hpc, hlat] at hstep
        rw [Option.some.injEq] at hstep
        subst hstep
        refine ⟨hok, by simp [List.length_set, h.plen], h.nodup, h.bound,
          (by rw [hE]; exact List.mem_cons_self _ _), rfl, ?_, ?_, ?_, ?_, ?_, ?_⟩
        · show c.latchVals ++ E.map _ = _
          rw [h.lv, List.nil_append]
        · exact h3
        · exact h5
        · intro x hxk hxmem
          have hxt : t ≠ x := by
            intro hc
            exact hxmem (by rw [← hc, hE]; exact List.mem_cons_self _ _)
          show ((c.pcs.set t _)[x]?).getD _ = _
          rw [getD_set_ne _ _ _ _ _ hxt]
          exact h.unenrolled x hxk hxmem
        · intro x hxE hxt
          have hxes : x ∈ es := by
            rw [hE] at hxE
            rcases List.mem_cons.mp hxE with rfl | hxs
            · exact absurd rfl hxt
            · exact hxs
          have hxt2 : t ≠ x := fun hc => htes (hc ▸ hxes)
          show ((c.pcs.set t _)[x]?).getD _ = _
          rw [getD_set_ne _ _ _ _ _ hxt2]
          exact h.tail_wait t es hE x hxes
        · left
          refine ⟨rfl, ?_, h.cached, h4⟩
          show ((c.pcs.set t _)[t]?).getD _ = _
          rw [getD_set_self _ _ _ _ htlen]
      · rw [hpct] at hh
        exact absurd hh (fun hc => SFpc.noConfusion hc)
    | produceErr e =>
      have htlen : t < c.pcs.length := (List.getElem?_eq_some_iff.mp hpc).1
      have htk : t < k := by rw [h.plen] at htlen; exact htlen
      have hpct : pcOf c t = SFpc.produceErr e := by simp [pcOf, hpc]
      obtain ⟨es, hE⟩ := head_of_nonstart h htk
        (by rw [hpct]; exact fun hc => SFpc.noConfusion hc)
        (by rw [hpct]; exact fun hc => SFpc.noConfusion hc)
      have htes : t ∉ es := by
        have := h.nodup
        rw [hE] at this
        exact (List.nodup_cons.mp this).1
      have hlat : c.latches = some E := by
        rw [h.latch, hE]
        simp
      rcases h.head_state t es hE with ⟨hh, _⟩ | ⟨_, hh, _⟩ | ⟨hok, hh, h3, h4, h5⟩
      · rw [hpct] at hh
        exact absurd hh (fun hc => SFpc.noConfusion hc)
      · rw [hpct] at hh
        exact absurd hh (fun hc => SFpc.noConfusion hc)
      · have he : e = sfFailure := by
          rw [hpct] at hh
          exact (SFpc.produceErr.injEq _ _).mp hh
        subst he
        right
        simp only [sfStep, hpc, hlat] at hstep
        rw [Option.some.injEq] at hstep
        subst hstep
        refine ⟨hok, by simp [List.length_set, h.plen], h.nodup, h.bound,
          (by rw [hE]; exact List.mem_cons_self _ _), rfl, ?_, h3, h5, h4, h.cached,
          ?_, ?_, ?_⟩
        · show c.latchVals ++ E.map _ = _
          rw [h.lv, List.nil_append]
        · intro x hxk hxmem
          have hxt : t ≠ x := by
            intro hc
            exact hxmem (by rw [← hc, hE]; exact List.mem_cons_self _ _)
          show ((c.pcs.set t _)[x]?).getD _ = _
          rw [getD_set_ne _ _ _ _ _ hxt]
          exact h.unenrolled x hxk hxmem
        · intro x hxE hxt
          have hxes : x ∈ es := by
            rw [hE] at hxE
            rcases List.mem_cons.mp hxE with rfl | hxs
            · exact absurd rfl hxt
            · exact hxs
          have hxt2 : t ≠ x := fun hc => htes (hc ▸ hxes)
          show ((c.pcs.set t _)[x]?).getD _ = _
          rw [getD_set_ne _ _ _ _ _ hxt2]
          exact h.tail_wait t es hE x hxes
        · show ((c.pcs.set t _)[t]?).getD _ = _
          rw [getD_set_self _ _ _ _ htlen]

theorem invA_pc_cases {k : Nat} {ok : Bool} {E : List Nat} {c : SFCfg} {t : Nat}
    (h : InvA k ok E c) (htk : t < k) :
    pcOf c t = SFpc.start ∨ pcOf c t = SFpc.waiting ∨ pcOf c t = SFpc.connect
    ∨ pcOf c t = SFpc.produce (mkResp t) ∨ pcOf c t = SFpc.produceErr sfFailure := by
  by_cases hmem : t ∈ E
  · cases hE : E with
    | nil => rw [hE] at hmem; simp at hmem
    | cons e0 es =>
      rw [hE] at hmem
      rcases List.mem_cons.mp hmem with rfl | hts
      · rcases h.head_state t es hE with ⟨hh, _⟩ | ⟨_, hh, _⟩ | ⟨_, hh, _⟩
        · exact Or.inr (Or.inr (Or.inl hh))
        · exact Or.inr (Or.inr (Or.inr (Or.inl hh)))
        · exact Or.inr (Or.inr (Or.inr (Or.inr hh)))
      · exact Or.inr (Or.inl (h.tail_wait e0 es hE t hts))
  · exact Or.inl (h.unenrolled t htk hmem)

theorem invA_no_record {k : Nat} {ok : Bool} {E : List Nat} {c c2 : SFCfg} {t : Nat}
    (h : InvA k ok E c) (hstep : sfStep ok c (.record t) = some c2) : False := by
  cases hpc : c.pcs[t]? with
  | none => simp [sfStep, hpc] at hstep
  | some pc =>
    cases pc with
    | record r n =>
      have htk : t < k := by
        have := (List.getElem?_eq_some_iff.mp hpc).1
        rw [h.plen] at this
        exact this
      have hpct : pcOf c t = SFpc.record r n := by simp [pcOf, hpc]
      rcases invA_pc_cases h htk with hh | hh | hh | hh | hh <;>
        rw [hpct] at hh <;> exact SFpc.noConfusion hh
    | start => simp [sfStep, hpc] at hstep
    | connect => simp [sfStep, hpc] at hstep
    | produce r => simp [sfStep, hpc] at hstep
    | produceErr e => simp [sfStep, hpc] at hstep
    | bump r n => simp [sfStep, hpc] at hstep
    | waiting => simp [sfStep, hpc] at hstep
    | done => simp [sfStep, hpc] at hstep
    | doneHit => simp [sfStep, hpc] at hstep

theorem invA_no_bump {k : Nat} {ok : Bool} {E : List Nat} {c c2 : SFCfg} {t : Nat}
    (h : InvA k ok E c) (hstep : sfStep ok c (.bump t) = some c2) : False := by
  cases hpc : c.pcs[t]? with
  | none => simp [sfStep, hpc] at hstep
  | some pc =>
    cases pc with
    | bump r n =>
      have htk : t < k := by
        have := (List.getElem?_eq_some_iff.mp hpc).1
        rw [h.plen] at this
        exact this
      have hpct : pcOf c t = SFpc.bump r n := by simp [pcOf, hpc]
      rcases invA_pc_cases h htk with hh | hh | hh | hh | hh <;>
        rw [hpct] at hh <;> exact SFpc.noConfusion hh
    | start => simp [sfStep, hpc] at hstep
    | connect => simp [sfStep, hpc] at hstep
    | produce r => simp [sfStep, hpc] at hstep
    | produceErr e => simp [sfStep, hpc] at hstep
    | record r n => simp [sfStep, hpc] at hstep
    | waiting => simp [sfStep, hpc] at hstep
    | done => simp [sfStep, hpc] at hstep
    | doneHit => simp [sfStep, hpc] at hstep

theorem invB_pc_cases {k : Nat} {W : List Nat} {t0 stage : Nat} {c : SFCfg} {t : Nat}
    (h : InvB k W t0 stage c) (htk : t < k) :
    pcOf c t = SFpc.start ∨ pcOf c t = SFpc.waiting
    ∨ pcOf c t = SFpc.record (mkResp t0) W.length
    ∨ pcOf c t = SFpc.bump (mkResp t0) W.length ∨ pcOf c t = SFpc.done := by
  by_cases hW : t ∈ W
  · by_cases ht0 : t = t0
    · subst ht0
      rcases h.stg with ⟨_, hh, _⟩ | ⟨_, hh, _⟩ | ⟨_, hh, _⟩
      · exact Or.inr (Or.inr (Or.inl hh))
      · exact Or.inr (Or.inr (Or.inr (Or.inl hh)))
      · exact Or.inr (Or.inr (Or.inr (Or.inr hh)))
    · exact Or.inr (Or.inl (h.others t hW ht0))
  · exact Or.inl (h.unenrolled t htk hW)

theorem invB_no_connect {k : Nat} {ok : Bool} {W : List Nat} {t0 stage : Nat}
    {c c2 : SFCfg} {t : Nat} (h : InvB k W t0 stage c)
    (hstep : sfStep ok c (.connect t) = some c2) : False := by
  cases hpc : c.pcs[t]? with
  | none => simp [sfStep, hpc] at hstep
  | some pc =>
    cases pc with
    | connect =>
      have htk : t < k := by
        have := (List.getElem?_eq_some_iff.mp hpc).1
        rw [h.plen] at this
        exact this
      have hpct : pcOf c t = SFpc.connect := by simp [pcOf, hpc]
      rcases invB_pc_cases h htk with hh | hh | hh | hh | hh <;>
        rw [hpct] at hh <;> exact SFpc.noConfusion hh
    | start => simp [sfStep, hpc] at hstep
    | produce r => simp [sfStep, hpc] at hstep
    | produceErr e => simp [sfStep, hpc] at hstep
    | record r n => simp [sfStep, hpc] at hstep
    | bump r n => simp [sfStep, hpc] at hstep
    | waiting => simp [sfStep, hpc] at hstep
    | done => simp [sfStep, hpc] at hstep
    | doneHit => simp [sfStep, hpc] at hstep

theorem invB_no_produce {k : Nat} {ok : Bool} {W : List Nat} {t0 stage : Nat}
    {c c2 : SFCfg} {t : Nat} (h : InvB k W t0 stage c)
    (hstep : sfStep ok c (.produce t) = some c2) : False := by
  cases hpc : c.pcs[t]? with
  | none => simp [sfStep, hpc] at hstep
  | some pc =>
    cases pc with
    | produce r =>
      have htk : t < k := by
        have := (List.getElem?_eq_some_iff.mp hpc).1
        rw [h.plen] at this
        exact this
      have hpct : pcOf c t = SFpc.produce r := by simp [pcOf, hpc]
      rcases invB_pc_cases h htk with hh | hh | hh | hh | hh <;>
        rw [hpct] at hh <;> exact SFpc.noConfusion hh
    | produceErr e =>
      have htk : t < k := by
        have := (List.getElem?_eq_some_iff.mp hpc).1
        rw [h.plen] at this
        exact this
      have hpct : pcOf c t = SFpc.produceErr e := by simp [pcOf, hpc]
      rcases invB_pc_cases h htk with hh | hh | hh | hh | hh <;>
        rw [hpct] at hh <;> exact SFpc.noConfusion hh
    | start => simp [sfStep, hpc] at hstep
    | connect => simp [sfStep, hpc] at hstep
    | record r n => simp [sfStep, hpc] at hstep
    | bump r n => simp [sfStep, hpc] at hstep
    | waiting => simp [sfStep, hpc] at hstep
    | done => simp [sfStep, hpc] at hstep
    | doneHit => simp [sfStep, hpc] at hstep

theorem invB_record_step {k : Nat} {ok : Bool} {W : List Nat} {t0 stage : Nat}
    {c c2 : SFCfg} {t : Nat} (h : InvB k W t0 stage c)
    (hstep : sfStep ok c (.record t) = some c2) : InvB k W t0 1 c2 := by
  cases hpc : c.pcs[t]? with
  | none => simp [sfStep, hpc] at hstep
  | some pc =>
    cases pc with
    | record r n =>
      have htlen : t < c.pcs.length := (List.getElem?_eq_some_iff.mp hpc).1
      have htk : t < k := by rw [h.plen] at htlen; exact htlen
      have hpct : pcOf c t = SFpc.record r n := by simp [pcOf, hpc]
      have ht0 : t = t0 := by
        by_cases hW : t ∈ W
        · by_cases he : t = t0
          · exact he
          · have := h.others t hW he
            rw [hpct] at this
            exact SFpc.noConfusion this
        · have := h.unenrolled t htk hW
          rw [hpct] at this
          exact SFpc.noConfusion this
      subst ht0
      rcases h.stg with ⟨_, hh, hcach, hrefs⟩ | ⟨_, hh, _⟩ | ⟨_, hh, _⟩
      · have hr : r = mkResp t ∧ n = W.length := by
          rw [hpct] at hh
          have := (SFpc.record.injEq _ _ _ _).mp hh
          exact ⟨this.1, this.2⟩
        obtain ⟨hr1, hr2⟩ := hr
        subst hr1
        subst hr2
        simp only [sfStep, hpc] at hstep
        rw [Option.some.injEq] at hstep
        subst hstep
        refine ⟨by simp [List.length_set, h.plen], h.nodup, h.bound, h.t0W, h.latch,
          h.lv, h.calls, h.kbc, ?_, ?_, ?_⟩
        · intro x hxk hxW
          have hxt : t ≠ x := fun hc => hxW (hc ▸ h.t0W)
          show ((c.pcs.set t _)[x]?).getD _ = _
          rw [getD_set_ne _ _ _ _ _ hxt]
          exact h.unenrolled x hxk hxW
        · intro x hxW hxt
          have hxt2 : t ≠ x := fun hc => hxt hc.symm
          show ((c.pcs.set t _)[x]?).getD _ = _
          rw [getD_set_ne _ _ _ _ _ hxt2]
          exact h.others x hxW hxt
        · right; left
          refine ⟨rfl, ?_, rfl, hrefs⟩
          show ((c.pcs.set t _)[t]?).getD _ = _
          rw [getD_set_self _ _ _ _ htlen]
      · rw [hpct] at hh
        exact absurd hh (fun hc => SFpc.noConfusion hc)
      · rw [hpct] at hh
        exact absurd hh (fun hc => SFpc.noConfusion hc)
    | start => simp [sfStep, hpc] at hstep
    | connect => simp [sfStep, hpc] at hstep
    | produce r => simp [sfStep, hpc] at hstep
    | produceErr e => simp [sfStep, hpc] at hstep
    | bump r n => simp [sfStep, hpc] at hstep
    | waiting => simp [sfStep, hpc] at hstep
    | done => simp [sfStep, hpc] at hstep
    | doneHit => simp [sfStep, hpc] at hstep

theorem invB_bump_step {k : Nat} {ok : Bool} {W : List Nat} {t0 stage : Nat}
    {c c2 : SFCfg} {t : Nat} (h : InvB k W t0 stage c)
    (hstep : sfStep ok c (.bump t) = some c2) : InvB k W t0 2 c2 := by
  cases hpc : c.pcs[t]? with
  | none => simp [sfStep, hpc] at hstep
  | some pc =>
    cases pc with
    | bump r n =>
      have htlen : t < c.pcs.length := (List.getElem?_eq_some_iff.mp hpc).1
      have htk : t < k := by rw [h.plen] at htlen; exact htlen
      have hpct : pcOf c t = SFpc.bump r n := by simp [pcOf, hpc]
      have ht0 : t = t0 := by
        by_cases hW : t ∈ W
        · by_cases he : t = t0
          · exact he
          · have := h.others t hW he
            rw [hpct] at this
            exact SFpc.noConfusion this
        · have := h.unenrolled t htk hW
          rw [hpct] at this
          exact SFpc.noConfusion this
      subst ht0
      rcases h.stg with ⟨_, hh, _⟩ | ⟨_, hh, hcach, hrefs⟩ | ⟨_, hh, _⟩
      · rw [hpct] at hh
        exact absurd hh (fun hc => SFpc.noConfusion hc)
      · have hr : r = mkResp t ∧ n = W.length := by
          rw [hpct] at hh
          have := (SFpc.bump.injEq _ _ _ _).mp hh
          exact ⟨this.1, this.2⟩
        obtain ⟨hr1, hr2⟩ := hr
        subst hr1
        subst hr2
        have hget : alget c.refs (mkResp t).context = some 0 := by
          rw [hrefs]
          simp [alget, mkResp]
        simp only [sfStep, hpc, hget] at hstep
        rw [Option.some.injEq] at hstep
        subst hstep
        refine ⟨by simp [List.length_set, h.plen], h.nodup, h.bound, h.t0W, h.latch,
          h.lv, h.calls, h.kbc, ?_, ?_, ?_⟩
        · intro x hxk hxW
          have hxt : t ≠ x := fun hc => hxW (hc ▸ h.t0W)
          show ((c.pcs.set t _)[x]?).getD _ = _
          rw [getD_set_ne _ _ _ _ _ hxt]
          exact h.unenrolled x hxk hxW
        · intro x hxW hxt
          have hxt2 : t ≠ x := fun hc => hxt hc.symm
          show ((c.pcs.set t _)[x]?).getD _ = _
          rw [getD_set_ne _ _ _ _ _ hxt2]
          exact h.others x hxW hxt
        · right; right
          refine ⟨rfl, ?_, hcach, ?_⟩
          · show ((c.pcs.set t _)[t]?).getD _ = _
            rw [getD_set_self _ _ _ _ htlen]
          · show alset c.refs (mkResp t).context (0 + W.length) = _
            rw [hrefs]
            simp [alset, mkResp]
      · rw [hpct] at hh
        exact absurd hh (fun hc => SFpc.noConfusion hc)
    | start => simp [sfStep, hpc] at hstep
    | connect => simp [sfStep, hpc] at hstep
    | produce r => simp [sfStep, hpc] at hstep
    | produceErr e => simp [sfStep, hpc] at hstep
    | record r n => simp [sfStep, hpc] at hstep
    | waiting => simp [sfStep, hpc] at hstep
    | done => simp [sfStep, hpc] at hstep
    | doneHit => simp [sfStep, hpc] at hstep

theorem invF_pc_cases {k : Nat} {W : List Nat} {t0 : Nat} {c : SFCfg} {t : Nat}
    (h : InvF k W t0 c) (htk : t < k) :
    pcOf c t = SFpc.start ∨ pcOf c t = SFpc.waiting ∨ pcOf c t = SFpc.done := by
  by_cases hW : t ∈ W
  · by_cases ht0 : t = t0
    · subst ht0
      exact Or.inr (Or.inr h.pc0)
    · exact Or.inr (Or.inl (h.others t hW ht0))
  · exact Or.inl (h.unenrolled t htk hW)

theorem invF_no_step {k : Nat} {ok : Bool} {W : List Nat} {t0 : Nat}
    {c c2 : SFCfg} {a : SFAct} (h : InvF k W t0 c)
    (hne : ∀ t, a ≠ SFAct.enroll t) (hstep : sfStep ok c a = some c2) : False := by
  cases a with
  | enroll t => exact absurd rfl (hne t)
  | connect t =>
    cases hpc : c.pcs[t]? with
    | none => simp [sfStep, hpc] at hstep
    | some pc =>
      cases pc with
      | connect =>
        have htk : t < k := by
          have := (List.getElem?_eq_some_iff.mp hpc).1
          rw [h.plen] at this
          exact this
        have hpct : pcOf c t = SFpc.connect := by simp [pcOf, hpc]
        rcases invF_pc_cases h htk with hh | hh | hh <;>
          rw [hpct] at hh <;> exact SFpc.noConfusion hh
      | start => simp [sfStep, hpc] at hstep
      | produce r => simp [sfStep, hpc] at hstep
      | produceErr e => simp [sfStep, hpc] at hstep
      | record r n => simp [sfStep, hpc] at hstep
      | bump r n => simp [sfStep, hpc] at hstep
      | waiting => simp [sfStep, hpc] at hstep
      | done => simp [sfStep, hpc] at hstep
      | doneHit => simp [sfStep, hpc] at hstep
  | produce t =>
    cases hpc : c.pcs[t]? with
    | none => simp [sfStep, hpc] at hstep
    | some pc =>
      cases pc with
      | produce r =>
        have htk : t < k := by
          have := (List.getElem?_eq_some_iff.mp hpc).1
          rw [h.plen] at this
          exact this
        have hpct : pcOf c t = SFpc.produce r := by simp [pcOf, hpc]
        rcases invF_pc_cases h htk with hh | hh | hh <;>
          rw [hpct] at hh <;> exact SFpc.noConfusion hh
      | produceErr e =>
        have htk : t < k := by
          have := (List.getElem?_eq_some_iff.mp hpc).1
          rw [h.plen] at this
          exact this
        have hpct : pcOf c t = SFpc.produceErr e := by simp [pcOf, hpc]
        rcases invF_pc_cases h htk with hh | hh | hh <;>
          rw [hpct] at hh <;> exact SFpc.noConfusion hh
      | start => simp [sfStep, hpc] at hstep
      | connect => simp [sfStep, hpc] at hstep
      | record r n => simp [sfStep, hpc] at hstep
      | bump r n => simp [sfStep, hpc] at hstep
      | waiting => simp [sfStep, hpc] at hstep
      | done => simp [sfStep, hpc] at hstep
      | doneHit => simp [sfStep, hpc] at hstep
  | record t =>
    cases hpc : c.pcs[t]? with
    | none => simp [sfStep, hpc] at hstep
    | some pc =>
      cases pc with
      | record r n =>
        have htk : t < k := by
          have := (List.getElem?_eq_some_iff.mp hpc).1
          rw [h.plen] at this
          exact this
        have hpct : pcOf c t = SFpc.record r n := by simp [pcOf, hpc]
        rcases invF_pc_cases h htk with hh | hh | hh <;>
          rw [hpct] at hh <;> exact SFpc.noConfusion hh
      | start => simp [sfStep, hpc] at hstep
      | connect => simp [sfStep, hpc] at hstep
      | produce r => simp [sfStep, hpc] at hstep
      | produceErr e => simp [sfStep, hpc] at hstep
      | bump r n => simp [sfStep, hpc] at hstep
      | waiting => simp [sfStep, hpc] at hstep
      | done => simp [sfStep, hpc] at hstep
      | doneHit => simp [sfStep, hpc] at hstep
  | bump t =>
    cases hpc : c.pcs[t]? with
    | none => simp [sfStep, hpc] at hstep
    | some pc =>
      cases pc with
      | bump r n =>
        have htk : t < k := by
          have := (List.getElem?_eq_some_iff.mp hpc).1
          rw [h.plen] at this
          exact this
        have hpct : pcOf c t = SFpc.bump r n := by simp [pcOf, hpc]
        rcases invF_pc_cases h htk with hh | hh | hh <;>
          rw [hpct] at hh <;> exact SFpc.noConfusion hh
      | start => simp [sfStep, hpc] at hstep
      | connect => simp [sfStep, hpc] at hstep
      | produce r => simp [sfStep, hpc] at hstep
      | produceErr e => simp [sfStep, hpc] at hstep
      | record r n => simp [sfStep, hpc] at hstep
      | waiting => simp [sfStep, hpc] at hstep
      | done => simp [sfStep, hpc] at hstep
      | doneHit => simp [sfStep, hpc] at hstep

/-- No enroll action occurs in the schedule suffix. -/
def noEnroll (A : List SFAct) : Prop := ∀ t, SFAct.enroll t ∉ A

/-- Every enroll in the schedule precedes every produce: this is the
claim's "k get calls enroll waiters before the first establishment
completes". -/
def eap : List SFAct → Prop
  | [] => True
  | SFAct.produce _ :: rest => noEnroll rest ∧ eap rest
  | _ :: rest => eap rest

theorem noEnroll_tail {a : SFAct} {A : List SFAct} (h : noEnroll (a :: A)) :
    noEnroll A := fun t hc => h t (List.mem_cons_of_mem _ hc)

theorem sfRun_F {k : Nat} {ok : Bool} {W : List Nat} {t0 : Nat} :
    ∀ {A : List SFAct} {c cF : SFCfg}, sfRun ok c A = some cF → noEnroll A →
      InvF k W t0 c → InvF k W t0 cF := by
  intro A
  induction A with
  | nil =>
    intro c cF hrun _ h
    simp only [sfRun, Option.some.injEq] at hrun
    rw [← hrun]
    exact h
  | cons a rest ih =>
    intro c cF hrun hno h
    cases hstep : sfStep ok c a with
    | none => simp [sfRun, hstep] at hrun
    | some c1 =>
      cases ha : a with
      | enroll t =>
        rw [ha] at hno
        exact absurd (List.mem_cons_self _ _) (hno t)
      | connect t =>
        rw [ha] at hstep
        exact (invF_no_step h (fun t2 => by simp) hstep).elim
      | produce t =>
        rw [ha] at hstep
        exact (invF_no_step h (fun t2 => by simp) hstep).elim
      | record t =>
        rw [ha] at hstep
        exact (invF_no_step h (fun t2 => by simp) hstep).elim
      | bump t =>
        rw [ha] at hstep
        exact (invF_no_step h (fun t2 => by simp) hstep).elim

theorem sfRun_B {k : Nat} {ok : Bool} {W : List Nat} {t0 : Nat} :
    ∀ {A : List SFAct} {c cF : SFCfg} {stage : Nat},
      sfRun ok c A = some cF → noEnroll A → InvB k W t0 stage c →
      ∃ stage2, InvB k W t0 stage2 cF := by
  intro A
  induction A with
  | nil =>
    intro c cF stage hrun _ h
    simp only [sfRun, Option.some.injEq] at hrun
    rw [← hrun]
    exact ⟨stage, h⟩
  | cons a rest ih =>
    intro c cF stage hrun hno h
    cases hstep : sfStep ok c a with
    | none => simp [sfRun, hstep] at hrun
    | some c1 =>
      have hrun2 : sfRun ok c1 rest = some cF := by
        simp only [sfRun, hstep] at hrun
        exact hrun
      cases a with
      | enroll t => exact absurd (List.mem_cons_self _ _) (hno t)
      | connect t => exact (invB_no_connect h hstep).elim
      | produce t => exact (invB_no_produce h hstep).elim
      | record t => exact ih hrun2 (noEnroll_tail hno) (invB_record_step h hstep)
      | bump t => exact ih hrun2 (noEnroll_tail hno) (invB_bump_step h hstep)

theorem sfRun_A {k : Nat} {ok : Bool} :
    ∀ {A : List SFAct} {c cF : SFCfg} {E : List Nat},
      sfRun ok c A = some cF → eap A → InvA k ok E c →
      (∃ E2, InvA k ok E2 cF)
      ∨ (ok = true ∧ ∃ W t0 stage, InvB k W t0 stage cF)
      ∨ (ok = false ∧ ∃ W t0, InvF k W t0 cF) := by
  intro A
  induction A with
  | nil =>
    intro c cF E hrun _ h
    simp only [sfRun, Option.some.injEq] at hrun
    rw [← hrun]
    exact Or.inl ⟨E, h⟩
  | cons a rest ih =>
    intro c cF E hrun hea h
    cases hstep : sfStep ok c a with
    | none => simp [sfRun, hstep] at hrun
    | some c1 =>
      have hrun2 : sfRun ok c1 rest = some cF := by
        simp only [sfRun, hstep] at hrun
        exact hrun
      cases a with
      | enroll t =>
        have hea2 : eap rest := by
          simp only [eap] at hea
          exact hea
        obtain ⟨_, _, h2⟩ := invA_enroll h hstep
        exact ih hrun2 hea2 h2
      | connect t =>
        have hea2 : eap rest := by
          simp only [eap] at hea
          exact hea
        exact ih hrun2 hea2 (invA_connect h hstep)
      | produce t =>
        have hea2 : noEnroll rest ∧ eap rest := by
          simp only [eap] at hea
          exact hea
        rcases invA_produce h hstep with ⟨hok, hB⟩ | ⟨hok, hF⟩
        · right; left
          refine ⟨hok, ?_⟩
          obtain ⟨st2, hB2⟩ := sfRun_B hrun2 hea2.1 hB
          exact ⟨E, t, st2, hB2⟩
        · right; right
          exact ⟨hok, E, t, sfRun_F hrun2 hea2.1 hF⟩
      | record t => exact (invA_no_record h hstep).elim
      | bump t => exact (invA_no_bump h hstep).elim

theorem get_of_pcOf {c : SFCfg} {k t : Nat} (hplen : c.pcs.length = k)
    (htk : t < k) : c.pcs[t]? = some (pcOf c t) := by
  have hl : t < c.pcs.length := by omega
  rw [List.getElem?_eq_getElem hl]
  simp [pcOf, List.getElem?_eq_getElem hl]

/-- C1 (amended): for any fingerprint key, when every one of the k
`get` calls enrolls its waiter before the first establishment's
response is produced to the waiters (`eap`), then in every completed
(maximal) schedule the transport method is invoked exactly once; on
success all k waiters receive the same response dict and that
context's refcount equals k; on failure every waiter receives the
failure and no cache entry or refcount entry remains.  (The original
claim's further assertion that no window exists in which a waiter
arriving after response delivery can miss the refcount bump is false —
see the counterexample theorem.) -/
theorem single_flight_amended (k : Nat) (ok : Bool) (A : List SFAct) (c : SFCfg)
    (hk : 0 < k)
    (hrun : sfRun ok (sfInit k) A = some c)
    (horder : eap A)
    (hmax : ∀ a, sfStep ok c a = none) :
    c.calls = 1
    ∧ (ok = true → ∃ r, c.cached = some r ∧ alget c.refs r.context = some k
        ∧ ∀ t, t < k → alget c.latchVals t = some (SFVal.resp r))
    ∧ (ok = false → c.cached = none ∧ c.refs = []
        ∧ ∀ t, t < k → alget c.latchVals t = some (SFVal.excT sfFailure)) := by
  rcases sfRun_A hrun horder (invA_init k ok) with ⟨E, hA⟩ |
    ⟨hok, W, t0, stage, hB⟩ | ⟨hok, W, t0, hF⟩
  · exfalso
    cases hE : E with
    | nil =>
      have hst : pcOf c 0 = SFpc.start := hA.unenrolled 0 hk (by rw [hE]; simp)
      have hpc0 : c.pcs[0]? = some SFpc.start := by
        rw [get_of_pcOf hA.plen hk, hst]
      have hcon := hmax (.enroll 0)
      simp [sfStep, hpc0, hA.cached] at hcon
    | cons e0 es =>
      have he0k : e0 < k := hA.bound e0 (by rw [hE]; exact List.mem_cons_self _ _)
      have hlat : c.latches = some E := by
        rw [hA.latch, hE]
        simp
      rcases hA.head_state e0 es hE with ⟨hh, _⟩ | ⟨_, hh, _⟩ | ⟨_, hh, _⟩
      · have hpc0 : c.pcs[e0]? = some SFpc.connect := by
          rw [get_of_pcOf hA.plen he0k, hh]
        have hcon := hmax (.connect e0)
        cases hok2 : ok <;> simp [sfStep, hpc0, hok2] at hcon
      · have hpc0 : c.pcs[e0]? = some (SFpc.produce (mkResp e0)) := by
          rw [get_of_pcOf hA.plen he0k, hh]
        have hcon := hmax (.produce e0)
        simp [sfStep, hpc0, hlat] at hcon
      · have hpc0 : c.pcs[e0]? = some (SFpc.produceErr sfFailure) := by
          rw [get_of_pcOf hA.plen he0k, hh]
        have hcon := hmax (.produce e0)
        simp [sfStep, hpc0, hlat] at hcon
  · have ht0k : t0 < k := hB.bound t0 hB.t0W
    rcases hB.stg with ⟨_, hh, hcach, hrefs⟩ | ⟨_, hh, hcach, hrefs⟩ |
      ⟨_, hh, hcach, hrefs⟩
    · exfalso
      have hpc0 : c.pcs[t0]? = some (SFpc.record (mkResp t0) W.length) := by
        rw [get_of_pcOf hB.plen ht0k, hh]
      have hcon := hmax (.record t0)
      simp [sfStep, hpc0] at hcon
    · exfalso
      have hpc0 : c.pcs[t0]? = some (SFpc.bump (mkResp t0) W.length) := by
        rw [get_of_pcOf hB.plen ht0k, hh]
      have hget : alget c.refs (mkResp t0).context = some 0 := by
        rw [hrefs]
        simp [alget, mkResp]
      have hcon := hmax (.bump t0)
      simp [sfStep, hpc0, hget] at hcon
    · have hfull : ∀ t, t < k → t ∈ W := by
        intro t htk
        by_contra hW
        have hst : pcOf c t = SFpc.start := hB.unenrolled t htk hW
        have hpc2 : c.pcs[t]? = some SFpc.start := by
          rw [get_of_pcOf hB.plen htk, hst]
        have hget : alget c.refs (mkResp t0).context = some W.length := by
          rw [hrefs]
          simp [alget, mkResp]
        have hcon := hmax (.enroll t)
        simp [sfStep, hpc2, hcach, hget] at hcon
      have hlen : W.length = k := by
        have h1 : W.Subperm (List.range k) :=
          List.subperm_of_subset hB.nodup
            (fun t ht => List.mem_range.mpr (hB.bound t ht))
        have h2 : (List.range k).Subperm W :=
          List.subperm_of_subset (List.nodup_range k)
            (fun t ht => hfull t (List.mem_range.mp ht))
        have hl1 := h1.length_le
        have hl2 := h2.length_le
        rw [List.length_range] at hl1 hl2
        omega
      refine ⟨hB.calls, ?_, ?_⟩
      · intro _
        refine ⟨mkResp t0, hcach, ?_, ?_⟩
        · rw [hrefs, hlen]
          simp [alget, mkResp]
        · intro t htk
          rw [hB.lv]
          exact alget_map_const (hfull t htk)
      · intro hok2
        rw [hok] at hok2
        exact absurd hok2 (by simp)
  · have hfull : ∀ t, t < k → t ∈ W := by
      intro t htk
      by_contra hW
      have hst : pcOf c t = SFpc.start := hF.unenrolled t htk hW
      have hpc2 : c.pcs[t]? = some SFpc.start := by
        rw [get_of_pcOf hF.plen htk, hst]
      have hcon := hmax (.enroll t)
      simp [sfStep, hpc2, hF.cached] at hcon
    refine ⟨hF.calls, ?_, ?_⟩
    · intro hok2
      rw [hok] at hok2
      exact absurd hok2 (by simp)
    · intro _
      refine ⟨hF.cached, hF.refs, ?_⟩
      intro t htk
      rw [hF.lv]
      exact alget_map_const (hfull t htk)

/-- A schedule in which both threads enroll before the response is
produced. -/
def wSched : List SFAct :=
  [.enroll 0, .enroll 1, .connect 0, .produce 0, .record 0, .bump 0]

/-- Final configuration of `wSched`. -/
def cW : SFCfg :=
  { cached := some (mkResp 0), latches := none, refs := [(0, 2)], kbc := [0],
    latchVals := [(0, SFVal.resp (mkResp 0)), (1, SFVal.resp (mkResp 0))],
    calls := 1, pcs := [SFpc.done, SFpc.waiting] }

/-- C1 witness: two threads enroll before the produce; the transport
runs once, both waiters get the same response, and the refcount is 2. -/
theorem single_flight_witness :
    cW.calls = 1
    ∧ (true = true → ∃ r, cW.cached = some r ∧ alget cW.refs r.context = some 2
        ∧ ∀ t, t < 2 → alget cW.latchVals t = some (SFVal.resp r))
    ∧ (true = false → cW.cached = none ∧ cW.refs = []
        ∧ ∀ t, t < 2 → alget cW.latchVals t = some (SFVal.excT sfFailure)) :=
  single_flight_amended 2 true wSched cW (by decide) (by decide)
    (by simp [wSched, eap, noEnroll])
    (by
      intro a
      rcases a with t | t | t | t | t <;>
        match t with
        | 0 => rfl
        | 1 => rfl
        | n + 2 => rfl)

end Mitogen
